import Mathlib

/-!
Verification development for the p4est core algorithms (2D build of
`src/p4est_algorithms.c`).  Quadrants are embedded with integer Morton
coordinates plus a refinement level; the bit primitives from the quadrant
layer are modelled from the specification (§3, §4.1) since only their
contracts are available, and every algorithm from `p4est_algorithms.c`
is translated directly from its C source.
-/

namespace P4est

/-- `P4EST_MAXLEVEL` -/
def maxlevelC : Nat := 30

/-- `P4EST_QMAXLEVEL` -/
def qmaxlevelC : Nat := 29

/-- `P4EST_ROOT_LEN = 1 << P4EST_MAXLEVEL` -/
def rootLen : Int := 2 ^ 30

/-- `P4EST_QUADRANT_LEN (l) = 1 << (P4EST_MAXLEVEL - l)` -/
def lenAt (l : Nat) : Int := 2 ^ (30 - l)

/-- A 2D p4est quadrant: anchor coordinates and refinement level. -/
structure Quadrant where
  x : Int
  y : Int
  level : Nat
deriving DecidableEq, Repr

/-- Modelled from the spec (§3): a *valid* quadrant has coordinates that are
multiples of `LEN(level)` inside `[0, ROOT_LEN)` and level at most
`P4EST_QMAXLEVEL`. -/
def IsValidQ (q : Quadrant) : Prop :=
  q.level ≤ 29 ∧ 0 ≤ q.x ∧ q.x < rootLen ∧ 0 ≤ q.y ∧ q.y < rootLen ∧
    lenAt q.level ∣ q.x ∧ lenAt q.level ∣ q.y

instance (q : Quadrant) : Decidable (IsValidQ q) := by
  unfold IsValidQ; infer_instance

/-- Modelled from the spec (§3): an *extended* quadrant relaxes the range to
`[-ROOT_LEN, 2·ROOT_LEN)`. -/
def IsExtQ (q : Quadrant) : Prop :=
  q.level ≤ 29 ∧ -rootLen ≤ q.x ∧ q.x < 2 * rootLen ∧ -rootLen ≤ q.y ∧
    q.y < 2 * rootLen ∧ lenAt q.level ∣ q.x ∧ lenAt q.level ∣ q.y

instance (q : Quadrant) : Decidable (IsExtQ q) := by
  unfold IsExtQ; infer_instance

/-- Modelled from the spec: `p4est_quadrant_is_inside_root` tests that the
anchor lies inside the unit tree. -/
def insideRoot (q : Quadrant) : Bool :=
  0 ≤ q.x && q.x < rootLen && 0 ≤ q.y && q.y < rootLen

/-! ### Bit interleaving (Morton index) -/

/-- Fuelled interleaving worker; the fuel only needs to dominate `x + y`. -/
def interleaveGo : Nat → Nat → Nat → Nat
  | 0, _, _ => 0
  | f + 1, x, y =>
    if x = 0 ∧ y = 0 then 0
    else x % 2 + 2 * (y % 2) + 4 * interleaveGo f (x / 2) (y / 2)

/-- Interleave the bits of `x` and `y` (`y` more significant), giving the
Morton index that orders quadrant anchors. -/
def interleave (x y : Nat) : Nat := interleaveGo (x + y) x y

theorem interleaveGo_fuel (f : Nat) : ∀ f' x y, x + y ≤ f → x + y ≤ f' →
    interleaveGo f x y = interleaveGo f' x y := by
  induction f with
  | zero =>
    intro f' x y h _
    have hx : x = 0 := by omega
    have hy : y = 0 := by omega
    subst hx
    subst hy
    cases f' with
    | zero => rfl
    | succ f' => simp [interleaveGo]
  | succ f ih =>
    intro f' x y h h'
    by_cases h0 : x = 0 ∧ y = 0
    · obtain ⟨rfl, rfl⟩ := h0
      cases f' with
      | zero => simp [interleaveGo]
      | succ f' => simp [interleaveGo]
    · have hpos : 0 < x + y := by omega
      cases f' with
      | zero => omega
      | succ f' =>
        show (if x = 0 ∧ y = 0 then 0
            else x % 2 + 2 * (y % 2) + 4 * interleaveGo f (x / 2) (y / 2)) =
          (if x = 0 ∧ y = 0 then 0
            else x % 2 + 2 * (y % 2) + 4 * interleaveGo f' (x / 2) (y / 2))
        rw [if_neg h0, if_neg h0]
        have hrec : x / 2 + y / 2 ≤ f := by omega
        have hrec' : x / 2 + y / 2 ≤ f' := by omega
        rw [ih f' (x / 2) (y / 2) hrec hrec']

theorem interleave_eq (x y : Nat) :
    interleave x y = x % 2 + 2 * (y % 2) + 4 * interleave (x / 2) (y / 2) := by
  unfold interleave
  by_cases h0 : x = 0 ∧ y = 0
  · obtain ⟨rfl, rfl⟩ := h0
    simp [interleaveGo]
  · have hpos : 0 < x + y := by omega
    obtain ⟨s, hs⟩ : ∃ s, x + y = s + 1 := ⟨x + y - 1, by omega⟩
    rw [hs]
    show (if x = 0 ∧ y = 0 then 0
        else x % 2 + 2 * (y % 2) + 4 * interleaveGo s (x / 2) (y / 2)) =
      x % 2 + 2 * (y % 2) + 4 * interleaveGo (x / 2 + y / 2) (x / 2) (y / 2)
    rw [if_neg h0, interleaveGo_fuel s (x / 2 + y / 2) (x / 2) (y / 2)
      (by omega) (le_refl _)]

theorem interleave_zero : interleave 0 0 = 0 := rfl

theorem interleave_lt (k x y : Nat) (hx : x < 2 ^ k) (hy : y < 2 ^ k) :
    interleave x y < 4 ^ k := by
  induction k generalizing x y with
  | zero =>
    interval_cases x
    interval_cases y
    simp [interleave_zero]
  | succ k ih =>
    rw [interleave_eq]
    have h1 : x % 2 ≤ 1 := Nat.le_of_lt_succ (Nat.mod_lt x (by norm_num))
    have h2 : y % 2 ≤ 1 := Nat.le_of_lt_succ (Nat.mod_lt y (by norm_num))
    have h3 : interleave (x / 2) (y / 2) < 4 ^ k := by
      refine ih _ _ ?_ ?_ <;>
        · apply Nat.div_lt_of_lt_mul
          rw [pow_succ, mul_comm] at *
          omega
    have h4 : 4 ^ (k + 1) = 4 * 4 ^ k := by rw [pow_succ, mul_comm]
    omega

theorem interleave_split (k a b u v : Nat) (hu : u < 2 ^ k) (hv : v < 2 ^ k) :
    interleave (2 ^ k * a + u) (2 ^ k * b + v) =
      4 ^ k * interleave a b + interleave u v := by
  induction k generalizing u v with
  | zero =>
    interval_cases u
    interval_cases v
    simp [interleave_zero]
  | succ k ih =>
    rw [interleave_eq]
    have e2 : (2:Nat) ^ (k+1) = 2 * 2 ^ k := by rw [pow_succ, mul_comm]
    have hxm : (2 ^ (k+1) * a + u) % 2 = u % 2 := by
      rw [e2, mul_assoc, Nat.mul_add_mod]
    have hym : (2 ^ (k+1) * b + v) % 2 = v % 2 := by
      rw [e2, mul_assoc, Nat.mul_add_mod]
    have hxd : (2 ^ (k+1) * a + u) / 2 = 2 ^ k * a + u / 2 := by
      rw [e2, mul_assoc, Nat.mul_add_div two_pos]
    have hyd : (2 ^ (k+1) * b + v) / 2 = 2 ^ k * b + v / 2 := by
      rw [e2, mul_assoc, Nat.mul_add_div two_pos]
    have hu2 : u / 2 < 2 ^ k := by
      apply Nat.div_lt_of_lt_mul; rw [e2, mul_comm] at hu; omega
    have hv2 : v / 2 < 2 ^ k := by
      apply Nat.div_lt_of_lt_mul; rw [e2, mul_comm] at hv; omega
    have e4 : (4:Nat) ^ (k+1) = 4 * 4 ^ k := by rw [pow_succ, mul_comm]
    rw [hxm, hym, hxd, hyd, ih _ _ hu2 hv2, interleave_eq u v, e4]
    ring

theorem interleave_scale (k a b : Nat) :
    interleave (2 ^ k * a) (2 ^ k * b) = 4 ^ k * interleave a b := by
  have := interleave_split k a b 0 0 (Nat.pos_pow_of_pos k (by norm_num))
    (Nat.pos_pow_of_pos k (by norm_num))
  simpa [interleave_zero] using this

theorem interleave_mod_two (x y : Nat) : interleave x y % 2 = x % 2 := by
  rw [interleave_eq]
  omega

theorem interleave_div_two_mod_two (x y : Nat) :
    interleave x y / 2 % 2 = y % 2 := by
  rw [interleave_eq]
  have hx : x % 2 < 2 := Nat.mod_lt x (by norm_num)
  have hy : y % 2 < 2 := Nat.mod_lt y (by norm_num)
  omega

theorem interleave_div_four (x y : Nat) :
    interleave x y / 4 = interleave (x / 2) (y / 2) := by
  rw [interleave_eq]
  have hx : x % 2 < 2 := Nat.mod_lt x (by norm_num)
  have hy : y % 2 < 2 := Nat.mod_lt y (by norm_num)
  omega

theorem interleave_inj {x₁ y₁ x₂ y₂ : Nat}
    (h : interleave x₁ y₁ = interleave x₂ y₂) : x₁ = x₂ ∧ y₁ = y₂ := by
  by_cases h0 : x₁ + y₁ + x₂ + y₂ = 0
  · omega
  · have hm : x₁ % 2 = x₂ % 2 := by
      have := interleave_mod_two x₁ y₁
      rw [h, interleave_mod_two] at this
      omega
    have hm' : y₁ % 2 = y₂ % 2 := by
      have := interleave_div_two_mod_two x₁ y₁
      rw [h, interleave_div_two_mod_two] at this
      omega
    have hrec : interleave (x₁ / 2) (y₁ / 2) = interleave (x₂ / 2) (y₂ / 2) := by
      have := interleave_div_four x₁ y₁
      rw [h, interleave_div_four] at this
      omega
    have ih := interleave_inj hrec
    omega
termination_by x₁ + y₁ + x₂ + y₂
decreasing_by
  have d2 : y₁ / 2 ≤ y₁ := Nat.div_le_self _ _
  have d3 : x₂ / 2 ≤ x₂ := Nat.div_le_self _ _
  have d4 : y₂ / 2 ≤ y₂ := Nat.div_le_self _ _
  rcases Nat.eq_zero_or_pos x₁ with hz | hp
  · rcases Nat.eq_zero_or_pos y₁ with hz' | hp'
    · rcases Nat.eq_zero_or_pos x₂ with hz'' | hp''
      · rcases Nat.eq_zero_or_pos y₂ with hz''' | hp'''
        · omega
        · have : y₂ / 2 < y₂ := Nat.div_lt_self hp''' one_lt_two
          omega
      · have : x₂ / 2 < x₂ := Nat.div_lt_self hp'' one_lt_two
        omega
    · have : y₁ / 2 < y₁ := Nat.div_lt_self hp' one_lt_two
      omega
  · have : x₁ / 2 < x₁ := Nat.div_lt_self hp one_lt_two
    omega

/-! ### Morton index of a quadrant -/

/-- Shifted x coordinate, nonnegative for extended quadrants. -/
def Xc (q : Quadrant) : Nat := (q.x + rootLen).toNat

/-- Shifted y coordinate, nonnegative for extended quadrants. -/
def Yc (q : Quadrant) : Nat := (q.y + rootLen).toNat

/-- Morton index of the anchor of `q` on the `2^30` lattice (shifted). -/
def mq (q : Quadrant) : Nat := interleave (Xc q) (Yc q)

/-- Number of lattice cells covered by `q`. -/
def area (q : Quadrant) : Nat := 4 ^ (30 - q.level)

/-- First lattice cell covered by `q`. -/
def lo (q : Quadrant) : Nat := mq q

/-- One past the last lattice cell covered by `q`. -/
def hi (q : Quadrant) : Nat := mq q + area q

theorem area_pos (q : Quadrant) : 0 < area q := Nat.pos_pow_of_pos _ (by norm_num)

theorem lo_lt_hi (q : Quadrant) : lo q < hi q := by
  have := area_pos q
  unfold hi lo
  omega

/-! Coordinate/divisibility facts for extended quadrants. -/

theorem lenAt_pos (l : Nat) : 0 < lenAt l := by
  unfold lenAt
  positivity

theorem lenAt_cast (l : Nat) : lenAt l = ((2 ^ (30 - l) : Nat) : Int) := by
  unfold lenAt
  push_cast
  rfl

theorem ext_Xc_dvd (q : Quadrant) (h : IsExtQ q) : 2 ^ (30 - q.level) ∣ Xc q := by
  obtain ⟨hl, hx0, hx1, hy0, hy1, hdx, hdy⟩ := h
  have hR : lenAt q.level ∣ rootLen := by
    unfold lenAt rootLen
    exact pow_dvd_pow 2 (by omega)
  have hdvd : lenAt q.level ∣ (q.x + rootLen) := dvd_add hdx hR
  have hnn : 0 ≤ q.x + rootLen := by unfold rootLen at *; omega
  rw [lenAt_cast] at hdvd
  have : ((2 ^ (30 - q.level) : Nat) : Int) ∣ ((Xc q : Nat) : Int) := by
    unfold Xc
    rwa [Int.toNat_of_nonneg hnn]
  exact_mod_cast this

theorem ext_Yc_dvd (q : Quadrant) (h : IsExtQ q) : 2 ^ (30 - q.level) ∣ Yc q := by
  obtain ⟨hl, hx0, hx1, hy0, hy1, hdx, hdy⟩ := h
  have hR : lenAt q.level ∣ rootLen := by
    unfold lenAt rootLen
    exact pow_dvd_pow 2 (by omega)
  have hdvd : lenAt q.level ∣ (q.y + rootLen) := dvd_add hdy hR
  have hnn : 0 ≤ q.y + rootLen := by unfold rootLen at *; omega
  rw [lenAt_cast] at hdvd
  have : ((2 ^ (30 - q.level) : Nat) : Int) ∣ ((Yc q : Nat) : Int) := by
    unfold Yc
    rwa [Int.toNat_of_nonneg hnn]
  exact_mod_cast this

theorem Xc_le_iff {a b : Quadrant} (ha : -rootLen ≤ a.x) (hb : -rootLen ≤ b.x) :
    Xc a ≤ Xc b ↔ a.x ≤ b.x := by
  unfold Xc
  omega

theorem Yc_le_iff {a b : Quadrant} (ha : -rootLen ≤ a.y) (hb : -rootLen ≤ b.y) :
    Yc a ≤ Yc b ↔ a.y ≤ b.y := by
  unfold Yc
  omega

/-- Decomposition of the Morton index at scale `2^k`. -/
theorem mq_decomp (q : Quadrant) (k : Nat) :
    mq q = 4 ^ k * interleave (Xc q / 2 ^ k) (Yc q / 2 ^ k) +
      interleave (Xc q % 2 ^ k) (Yc q % 2 ^ k) := by
  unfold mq
  conv_lhs =>
    rw [← Nat.div_add_mod (Xc q) (2 ^ k), ← Nat.div_add_mod (Yc q) (2 ^ k)]
  exact interleave_split k _ _ _ _ (Nat.mod_lt _ (Nat.pos_pow_of_pos _ (by norm_num)))
    (Nat.mod_lt _ (Nat.pos_pow_of_pos _ (by norm_num)))

/-- An aligned quadrant's Morton index is a multiple of its area. -/
theorem mq_aligned (q : Quadrant) (h : IsExtQ q) :
    mq q = 4 ^ (30 - q.level) * interleave (Xc q / 2 ^ (30 - q.level))
      (Yc q / 2 ^ (30 - q.level)) := by
  obtain ⟨cx, hcx⟩ := ext_Xc_dvd q h
  obtain ⟨cy, hcy⟩ := ext_Yc_dvd q h
  have hx : Xc q % 2 ^ (30 - q.level) = 0 := by
    rw [hcx]; exact Nat.mul_mod_right _ _
  have hy : Yc q % 2 ^ (30 - q.level) = 0 := by
    rw [hcy]; exact Nat.mul_mod_right _ _
  have hd := mq_decomp q (30 - q.level)
  rw [hx, hy, interleave_zero, Nat.add_zero] at hd
  exact hd

theorem area_dvd_mq (q : Quadrant) (h : IsExtQ q) : area q ∣ mq q := by
  rw [mq_aligned q h]
  exact Dvd.intro _ rfl

/-- Two multiples of `d` can only differ by at least `d`. -/
theorem add_dvd_le {d m M : Nat} (hm : d ∣ m) (hM : d ∣ M) (h : m < M) :
    m + d ≤ M := by
  have hdvd : d ∣ (M - m) := Nat.dvd_sub' hM hm
  have hpos : 0 < M - m := by omega
  have := Nat.le_of_dvd hpos hdvd
  omega

theorem div_eq_div_iff_of_dvd {k a b : Nat} (hk : 0 < k) (hd : k ∣ a) :
    b / k = a / k ↔ a ≤ b ∧ b < a + k := by
  obtain ⟨e, he⟩ := hd
  subst he
  rw [Nat.mul_div_cancel_left _ hk]
  have hek : e * k = k * e := Nat.mul_comm e k
  constructor
  · intro h
    have hb := Nat.div_add_mod b k
    have hmod := Nat.mod_lt b hk
    rw [h] at hb
    omega
  · rintro ⟨h1, h2⟩
    have lower : e ≤ b / k := Nat.le_div_iff_mul_le hk |>.mpr (by omega)
    have upper : b / k < e + 1 := by
      rw [Nat.div_lt_iff_lt_mul hk]
      have : (e + 1) * k = k * e + k := by ring
      omega
    omega

/-- The Morton anchor of `c` lies in the Morton interval of the aligned
quadrant `p` iff the anchor coordinates of `c` lie in `p`'s box. -/
theorem mem_interval_iff_box (p c : Quadrant) (hp : IsExtQ p) :
    (lo p ≤ mq c ∧ mq c < hi p) ↔
      (Xc p ≤ Xc c ∧ Xc c < Xc p + 2 ^ (30 - p.level) ∧
       Yc p ≤ Yc c ∧ Yc c < Yc p + 2 ^ (30 - p.level)) := by
  have hkpos : 0 < (2:Nat) ^ (30 - p.level) := Nat.pos_pow_of_pos _ (by norm_num)
  have hdc := mq_decomp c (30 - p.level)
  have hdp := mq_aligned p hp
  have hrlt : interleave (Xc c % 2 ^ (30 - p.level)) (Yc c % 2 ^ (30 - p.level)) <
      4 ^ (30 - p.level) :=
    interleave_lt _ _ _ (Nat.mod_lt _ hkpos) (Nat.mod_lt _ hkpos)
  have hlo : lo p = mq p := rfl
  have hhi : hi p = mq p + 4 ^ (30 - p.level) := rfl
  constructor
  · rintro ⟨h1, h2⟩
    rw [hlo, hdp] at h1
    rw [hhi, hdp] at h2
    rw [hdc] at h1 h2
    have hHeq : interleave (Xc c / 2 ^ (30 - p.level)) (Yc c / 2 ^ (30 - p.level)) =
        interleave (Xc p / 2 ^ (30 - p.level)) (Yc p / 2 ^ (30 - p.level)) := by
      set K := (4:Nat) ^ (30 - p.level) with hK
      set H := interleave (Xc c / 2 ^ (30 - p.level)) (Yc c / 2 ^ (30 - p.level))
      set Hp := interleave (Xc p / 2 ^ (30 - p.level)) (Yc p / 2 ^ (30 - p.level))
      set r := interleave (Xc c % 2 ^ (30 - p.level)) (Yc c % 2 ^ (30 - p.level))
      have hle : Hp ≤ H := by
        by_contra hcon
        push_neg at hcon
        have : K * H + r < K * Hp := by
          calc K * H + r < K * H + K := by omega
            _ = K * (H + 1) := by ring
            _ ≤ K * Hp := Nat.mul_le_mul_left _ (by omega)
        omega
      have hlt : H < Hp + 1 := by
        by_contra hcon
        push_neg at hcon
        have : K * Hp + K ≤ K * H := by
          calc K * Hp + K = K * (Hp + 1) := by ring
            _ ≤ K * H := Nat.mul_le_mul_left _ hcon
        omega
      omega
    obtain ⟨hxe, hye⟩ := interleave_inj hHeq
    have hx := (div_eq_div_iff_of_dvd hkpos (ext_Xc_dvd p hp)).mp hxe
    have hy := (div_eq_div_iff_of_dvd hkpos (ext_Yc_dvd p hp)).mp hye
    exact ⟨hx.1, hx.2, hy.1, hy.2⟩
  · rintro ⟨h1, h2, h3, h4⟩
    have hxe := (div_eq_div_iff_of_dvd hkpos (ext_Xc_dvd p hp)).mpr ⟨h1, h2⟩
    have hye := (div_eq_div_iff_of_dvd hkpos (ext_Yc_dvd p hp)).mpr ⟨h3, h4⟩
    rw [hlo, hhi, hdp, hdc, hxe, hye]
    omega

/-- Modelled from the spec (§3, §4.1): Morton comparison with ancestor-first
tie break, the contract of `p4est_quadrant_compare`. -/
def qcompare (a b : Quadrant) : Int :=
  if mq a < mq b then -1
  else if mq b < mq a then 1
  else (a.level : Int) - (b.level : Int)

theorem qcompare_lt_iff (a b : Quadrant) :
    qcompare a b < 0 ↔ mq a < mq b ∨ (mq a = mq b ∧ a.level < b.level) := by
  unfold qcompare
  split
  · rename_i h
    simp [h]
  · split
    · rename_i h1 h2
      constructor
      · intro h
        omega
      · intro h
        omega
    · rename_i h1 h2
      have : mq a = mq b := by omega
      constructor
      · intro h
        right
        constructor
        · exact this
        · omega
      · intro h
        rcases h with h | h
        · omega
        · omega

theorem qcompare_eq_zero_iff (a b : Quadrant) :
    qcompare a b = 0 ↔ mq a = mq b ∧ a.level = b.level := by
  unfold qcompare
  split
  · rename_i h
    constructor
    · intro hc
      omega
    · intro hc
      omega
  · split
    · rename_i h1 h2
      constructor
      · intro hc
        omega
      · intro hc
        omega
    · rename_i h1 h2
      constructor
      · intro hc
        omega
      · intro hc
        omega

theorem mq_inj {a b : Quadrant} (ha : IsExtQ a) (hb : IsExtQ b)
    (h : mq a = mq b) : a.x = b.x ∧ a.y = b.y := by
  obtain ⟨hxe, hye⟩ := interleave_inj h
  unfold Xc at hxe
  unfold Yc at hye
  obtain ⟨-, hax, -, hay, -, -, -⟩ := ha
  obtain ⟨-, hbx, -, hby, -, -, -⟩ := hb
  unfold rootLen at *
  omega

/-- For extended quadrants, `qcompare` is zero exactly on equal quadrants. -/
theorem qcompare_eq_zero_iff_eq {a b : Quadrant} (ha : IsExtQ a) (hb : IsExtQ b) :
    qcompare a b = 0 ↔ a = b := by
  rw [qcompare_eq_zero_iff]
  constructor
  · rintro ⟨hm, hl⟩
    obtain ⟨hx, hy⟩ := mq_inj ha hb hm
    cases a
    cases b
    simp_all
  · rintro rfl
    exact ⟨rfl, rfl⟩

/-- Modelled from the spec (§4.1): `p4est_quadrant_is_ancestor`, strict. -/
def is_ancestor (a b : Quadrant) : Bool :=
  decide (a.level < b.level) && decide (a.x ≤ b.x) &&
  decide (b.x < a.x + lenAt a.level) && decide (a.y ≤ b.y) &&
  decide (b.y < a.y + lenAt a.level)

/-- Modelled from the spec (§4.1): `p4est_quadrant_is_next`; `b` starts exactly
where `a` ends on the finest-level lattice. -/
def is_next (a b : Quadrant) : Bool := decide (hi a = lo b)

/-- The coordinate form of `is_ancestor` is interval containment in Morton
space. -/
theorem is_ancestor_iff_interval {a b : Quadrant} (ha : IsExtQ a) (hb : IsExtQ b) :
    is_ancestor a b = true ↔
      a.level < b.level ∧ lo a ≤ lo b ∧ hi b ≤ hi a := by
  unfold is_ancestor
  simp only [Bool.and_eq_true, decide_eq_true_eq]
  have hRb : ((2 ^ (30 - a.level) : Nat) : Int) = lenAt a.level := (lenAt_cast _).symm
  constructor
  · rintro ⟨⟨⟨⟨hl, hx1⟩, hx2⟩, hy1⟩, hy2⟩
    refine ⟨hl, ?_⟩
    have hbox : Xc a ≤ Xc b ∧ Xc b < Xc a + 2 ^ (30 - a.level) ∧
        Yc a ≤ Yc b ∧ Yc b < Yc a + 2 ^ (30 - a.level) := by
      unfold Xc Yc
      obtain ⟨-, hax, -, hay, -, -, -⟩ := ha
      obtain ⟨-, hbx, -, hby, -, -, -⟩ := hb
      rw [← hRb] at hx2 hy2
      unfold rootLen at *
      omega
    have hmem := (mem_interval_iff_box a b ha).mpr hbox
    refine ⟨hmem.1, ?_⟩
    -- `hi b ≤ hi a` from alignment of the remainder
    have hka : (30 - b.level) ≤ (30 - a.level) := by omega
    have hdvd_area : area b ∣ area a := pow_dvd_pow 4 hka
    have hd1 : area b ∣ mq a := dvd_trans hdvd_area (area_dvd_mq a ha)
    have hd2 : area b ∣ mq b := area_dvd_mq b hb
    have hdiff : area b ∣ (mq b - mq a) := Nat.dvd_sub' hd2 hd1
    have harea_le : area b ≤ area a := Nat.le_of_dvd (area_pos a) hdvd_area
    have h1 : mq a ≤ mq b := hmem.1
    have h2 : mq b < mq a + area a := hmem.2
    show mq b + area b ≤ mq a + area a
    rcases Nat.eq_or_lt_of_le h1 with heq | hlt
    · omega
    · have hstep : (mq b - mq a) + area b ≤ area a :=
        add_dvd_le hdiff hdvd_area (by omega)
      omega
  · rintro ⟨hl, h1, h2⟩
    have hmem : lo a ≤ mq b ∧ mq b < hi a := by
      have := lo_lt_hi b
      unfold lo at *
      unfold hi at *
      omega
    have hbox := (mem_interval_iff_box a b ha).mp hmem
    obtain ⟨-, hax, -, hay, -, -, -⟩ := ha
    obtain ⟨-, hbx, -, hby, -, -, -⟩ := hb
    unfold Xc Yc at hbox
    rw [← hRb]
    unfold rootLen at *
    refine ⟨⟨⟨⟨hl, by omega⟩, by omega⟩, by omega⟩, by omega⟩

/-- Overlapping extended quadrants are nested: the coarser one contains the
finer one. -/
theorem nested_of_overlap {a b : Quadrant} (ha : IsExtQ a) (hb : IsExtQ b)
    (hlev : a.level ≤ b.level) (h1 : lo b < hi a) (h2 : lo a < hi b) :
    lo a ≤ lo b ∧ hi b ≤ hi a := by
  have e1 : lo a = mq a := rfl
  have e2 : lo b = mq b := rfl
  have e3 : hi a = mq a + area a := rfl
  have e4 : hi b = mq b + area b := rfl
  have hka : (30 - b.level) ≤ (30 - a.level) := by omega
  have hdvd_area : area b ∣ area a := pow_dvd_pow 4 hka
  have hd1 : area b ∣ lo a := dvd_trans hdvd_area (area_dvd_mq a ha)
  have hd2 : area b ∣ lo b := area_dvd_mq b hb
  have hdha : area b ∣ hi a := by
    unfold hi
    exact dvd_add hd1 hdvd_area
  constructor
  · by_contra hcon
    push_neg at hcon
    have := add_dvd_le hd2 hd1 hcon
    unfold hi at h2
    omega
  · have := add_dvd_le hd2 hdha h1
    unfold hi
    omega

/-! ### `p4est_quadrant_init_data` (C10) -/

/-- Observable effect of `p4est_quadrant_init_data`: the payload handle that
was stored (a fresh pool slot or NULL), the new live count of the user-data
pool, and how often `init_fn` ran. -/
structure InitDataEffect where
  user_data : Option Nat
  pool_count : Nat
  init_calls : Nat
deriving DecidableEq, Repr

/-- `p4est_quadrant_init_data` from `p4est_algorithms.c`: allocate from the
user-data pool iff `data_size > 0`, then call `init_fn` iff it is non-NULL
and the quadrant is inside the root. -/
def p4est_quadrant_init_data (data_size : Nat) (pool_count : Nat)
    (has_init_fn : Bool) (quad : Quadrant) : InitDataEffect :=
  let ud : Option Nat := if 0 < data_size then some pool_count else none
  let pc : Nat := if 0 < data_size then pool_count + 1 else pool_count
  let calls : Nat := if has_init_fn && insideRoot quad then 1 else 0
  ⟨ud, pc, calls⟩

/-! ### `p4est_tree_uniqify_overlap` (C7, C9) -/

/-- A quadrant together with its piggy-backed destination tree, as used by the
overlap output arrays. -/
structure PQuad where
  x : Int
  y : Int
  level : Nat
  which_tree : Int
deriving DecidableEq, Repr

/-- Forget the piggy data. -/
def PQuad.toQuad (a : PQuad) : Quadrant := ⟨a.x, a.y, a.level⟩

/-- Modelled from the spec (§4.6): `p4est_quadrant_compare_piggy` orders by
`which_tree` first, then by Morton comparison. -/
def compare_piggy (a b : PQuad) : Int :=
  if a.which_tree < b.which_tree then -1
  else if b.which_tree < a.which_tree then 1
  else qcompare a.toQuad b.toQuad

theorem compare_piggy_total (a b : PQuad) :
    compare_piggy a b ≤ 0 ∨ compare_piggy b a ≤ 0 := by
  unfold compare_piggy qcompare
  split_ifs <;> omega

theorem compare_piggy_trans {a b c : PQuad} (h1 : compare_piggy a b ≤ 0)
    (h2 : compare_piggy b c ≤ 0) : compare_piggy a c ≤ 0 := by
  unfold compare_piggy qcompare at *
  split_ifs at * <;> omega

theorem compare_piggy_antisymm {a b : PQuad} (h1 : compare_piggy a b ≤ 0)
    (h2 : compare_piggy b a ≤ 0) : compare_piggy a b = 0 := by
  unfold compare_piggy qcompare at *
  split_ifs at * <;> omega

theorem compare_piggy_eq_zero_iff_eq {a b : PQuad} (ha : IsExtQ a.toQuad)
    (hb : IsExtQ b.toQuad) : compare_piggy a b = 0 ↔ a = b := by
  constructor
  · intro h
    have hwt : a.which_tree = b.which_tree := by
      unfold compare_piggy at h
      split_ifs at h <;> omega
    have hq : qcompare a.toQuad b.toQuad = 0 := by
      unfold compare_piggy at h
      split_ifs at h <;> omega
    have := (qcompare_eq_zero_iff_eq ha hb).mp hq
    have hx : a.x = b.x := congrArg Quadrant.x this
    have hy : a.y = b.y := congrArg Quadrant.y this
    have hl : a.level = b.level := congrArg Quadrant.level this
    cases a
    cases b
    simp_all
  · rintro rfl
    unfold compare_piggy qcompare
    split_ifs <;> omega

/-- Modelled from the library contract of `sc_array_bsearch` on a sorted
array: whether some element of `skip` compares equal to `a`. -/
def bsearch_found (skip : List PQuad) (a : PQuad) : Bool :=
  skip.any (fun s => decide (compare_piggy s a = 0))

/-- The read/write compaction loop of `p4est_tree_uniqify_overlap`: drop an
element equal to its successor, drop an element found in `skip`, keep the
rest in order. -/
def uniqLoop (skip : List PQuad) : List PQuad → List PQuad
  | [] => []
  | [a] => if bsearch_found skip a then [] else [a]
  | a :: b :: rest =>
    if a = b then uniqLoop skip (b :: rest)
    else if bsearch_found skip a then uniqLoop skip (b :: rest)
    else a :: uniqLoop skip (b :: rest)

/-- `p4est_tree_uniqify_overlap` from `p4est_algorithms.c`. -/
def p4est_tree_uniqify_overlap (skip out : List PQuad) : List PQuad :=
  uniqLoop skip (out.mergeSort (fun a b => decide (compare_piggy a b ≤ 0)))

theorem uniqLoop_sublist (skip : List PQuad) (l : List PQuad) :
    (uniqLoop skip l).Sublist l := by
  induction l with
  | nil => simp [uniqLoop]
  | cons a rest ih =>
    cases rest with
    | nil =>
      unfold uniqLoop
      split
      · simp
      · simp
    | cons b rest' =>
      unfold uniqLoop
      split
      · exact ih.trans (List.sublist_cons_self _ _)
      · split
        · exact ih.trans (List.sublist_cons_self _ _)
        · exact ih.cons₂ a

theorem uniqLoop_not_found {skip : List PQuad} {l : List PQuad} {q : PQuad}
    (h : q ∈ uniqLoop skip l) : bsearch_found skip q = false := by
  induction l with
  | nil => simp [uniqLoop] at h
  | cons a rest ih =>
    cases rest with
    | nil =>
      unfold uniqLoop at h
      split at h
      · simp at h
      · rename_i hf
        simp at h
        subst h
        simpa using hf
    | cons b rest' =>
      unfold uniqLoop at h
      split at h
      · exact ih h
      · split at h
        · exact ih h
        · rename_i hne hf
          rcases List.mem_cons.mp h with rfl | hmem
          · simpa using hf
          · exact ih hmem

theorem uniqLoop_mem_of {skip : List PQuad} {l : List PQuad} {q : PQuad}
    (hmem : q ∈ l) (hnf : bsearch_found skip q = false) :
    q ∈ uniqLoop skip l := by
  induction l with
  | nil => simp at hmem
  | cons a rest ih =>
    cases rest with
    | nil =>
      simp at hmem
      subst hmem
      unfold uniqLoop
      rw [hnf]
      simp
    | cons b rest' =>
      unfold uniqLoop
      rcases List.mem_cons.mp hmem with rfl | hmem'
      · split
        · rename_i heq
          exact ih (heq ▸ List.mem_cons_self _ _)
        · split
          · rename_i hne hf
            rw [hnf] at hf
            simp at hf
          · exact List.mem_cons_self _ _
      · split
        · exact ih hmem'
        · split
          · exact ih hmem'
          · exact List.mem_cons_of_mem _ (ih hmem')

/-- Membership in the uniqified output is membership in the input minus the
skip list. -/
theorem uniqLoop_mem_iff {skip : List PQuad} {l : List PQuad} {q : PQuad} :
    q ∈ uniqLoop skip l ↔ (q ∈ l ∧ bsearch_found skip q = false) := by
  constructor
  · intro h
    exact ⟨(uniqLoop_sublist skip l).mem h, uniqLoop_not_found h⟩
  · rintro ⟨h1, h2⟩
    exact uniqLoop_mem_of h1 h2

theorem uniqLoop_nodup {skip : List PQuad} {l : List PQuad}
    (hext : ∀ p ∈ l, IsExtQ p.toQuad)
    (hsorted : l.Pairwise (fun a b => compare_piggy a b ≤ 0)) :
    (uniqLoop skip l).Nodup := by
  induction l with
  | nil => simp [uniqLoop]
  | cons a rest ih =>
    have hext' : ∀ p ∈ rest, IsExtQ p.toQuad := fun p hp =>
      hext p (List.mem_cons_of_mem _ hp)
    have hsorted' : rest.Pairwise (fun a b => compare_piggy a b ≤ 0) :=
      hsorted.tail
    cases rest with
    | nil =>
      unfold uniqLoop
      split
      · simp
      · simp
    | cons b rest' =>
      unfold uniqLoop
      split
      · exact ih hext' hsorted'
      · split
        · exact ih hext' hsorted'
        · rename_i hne hnf
          refine List.nodup_cons.mpr ⟨?_, ih hext' hsorted'⟩
          intro hmem
          have hin : a ∈ b :: rest' := (uniqLoop_sublist skip _).mem hmem
          rcases List.mem_cons.mp hin with heq | hmem'
          · exact hne heq
          · have hba : compare_piggy b a ≤ 0 :=
              List.rel_of_pairwise_cons hsorted' hmem'
            have hab : compare_piggy a b ≤ 0 :=
              List.rel_of_pairwise_cons hsorted (List.mem_cons_self _ _)
            have heq0 : compare_piggy a b = 0 := compare_piggy_antisymm hab hba
            have : a = b := (compare_piggy_eq_zero_iff_eq
              (hext a (List.mem_cons_self _ _))
              (hext b (List.mem_cons_of_mem _ (List.mem_cons_self _ _)))).mp heq0
            exact hne this

/-! ### Tree predicates from `p4est_algorithms.c` -/

/-- `p4est_tree_is_sorted`: every adjacent pair strictly increasing. -/
def p4est_tree_is_sorted : List Quadrant → Bool
  | [] => true
  | [_] => true
  | q1 :: q2 :: rest =>
    decide (qcompare q1 q2 < 0) && p4est_tree_is_sorted (q2 :: rest)

/-- `p4est_tree_is_linear`: sorted and no adjacent ancestor pair. -/
def p4est_tree_is_linear : List Quadrant → Bool
  | [] => true
  | [_] => true
  | q1 :: q2 :: rest =>
    decide (qcompare q1 q2 < 0) && !(is_ancestor q1 q2) &&
      p4est_tree_is_linear (q2 :: rest)

/-- `p4est_tree_is_complete`: every adjacent pair satisfies `is_next`. -/
def p4est_tree_is_complete : List Quadrant → Bool
  | [] => true
  | [_] => true
  | q1 :: q2 :: rest =>
    is_next q1 q2 && p4est_tree_is_complete (q2 :: rest)

/-- Modelled from the library contract of `sc_array_is_sorted`: adjacent pairs
non-decreasing. -/
def sc_array_is_sorted : List Quadrant → Bool
  | [] => true
  | [_] => true
  | q1 :: q2 :: rest =>
    decide (qcompare q1 q2 ≤ 0) && sc_array_is_sorted (q2 :: rest)

theorem tree_is_sorted_iff_chain (l : List Quadrant) :
    p4est_tree_is_sorted l = true ↔ l.Chain' (fun a b => qcompare a b < 0) := by
  induction l with
  | nil => simp [p4est_tree_is_sorted]
  | cons a rest ih =>
    cases rest with
    | nil => simp [p4est_tree_is_sorted]
    | cons b rest' =>
      rw [List.chain'_cons]
      unfold p4est_tree_is_sorted
      rw [Bool.and_eq_true, decide_eq_true_eq, ih]

theorem tree_is_linear_iff_chain (l : List Quadrant) :
    p4est_tree_is_linear l = true ↔
      l.Chain' (fun a b => qcompare a b < 0 ∧ is_ancestor a b = false) := by
  induction l with
  | nil => simp [p4est_tree_is_linear]
  | cons a rest ih =>
    cases rest with
    | nil => simp [p4est_tree_is_linear]
    | cons b rest' =>
      rw [List.chain'_cons]
      unfold p4est_tree_is_linear
      rw [Bool.and_eq_true, Bool.and_eq_true, decide_eq_true_eq, ih,
        Bool.not_eq_true', and_assoc]

theorem tree_is_complete_iff_chain (l : List Quadrant) :
    p4est_tree_is_complete l = true ↔
      l.Chain' (fun a b => is_next a b = true) := by
  induction l with
  | nil => simp [p4est_tree_is_complete]
  | cons a rest ih =>
    cases rest with
    | nil => simp [p4est_tree_is_complete]
    | cons b rest' =>
      rw [List.chain'_cons]
      unfold p4est_tree_is_complete
      rw [Bool.and_eq_true, ih]

theorem sc_array_is_sorted_iff_chain (l : List Quadrant) :
    sc_array_is_sorted l = true ↔ l.Chain' (fun a b => qcompare a b ≤ 0) := by
  induction l with
  | nil => simp [sc_array_is_sorted]
  | cons a rest ih =>
    cases rest with
    | nil => simp [sc_array_is_sorted]
    | cons b rest' =>
      rw [List.chain'_cons]
      unfold sc_array_is_sorted
      rw [Bool.and_eq_true, decide_eq_true_eq, ih]

/-! ### Claim theorems: C10, C7, C9 -/

/-- C10: `p4est_quadrant_init_data` allocates a payload from the user-data
pool exactly when the forest's `data_size` is positive (and stores a NULL
handle otherwise), and it invokes `init_fn` only when `init_fn` is non-NULL
and the quadrant lies inside the root; for quadrants outside the root the
initializer is never called even though the payload is still allocated. -/
theorem claim_C10_init_data (data_size pool_count : Nat) (has_init_fn : Bool)
    (quad : Quadrant) :
    ((p4est_quadrant_init_data data_size pool_count has_init_fn quad).user_data.isSome
        ↔ 0 < data_size) ∧
    ((p4est_quadrant_init_data data_size pool_count has_init_fn quad).pool_count
        = if 0 < data_size then pool_count + 1 else pool_count) ∧
    ((p4est_quadrant_init_data data_size pool_count has_init_fn quad).init_calls = 1
        ↔ (has_init_fn = true ∧ insideRoot quad = true)) ∧
    (insideRoot quad = false →
      (p4est_quadrant_init_data data_size pool_count has_init_fn quad).init_calls = 0) := by
  unfold p4est_quadrant_init_data
  refine ⟨?_, ?_, ?_, ?_⟩ <;> simp only [] <;> split_ifs <;> simp_all

/-- C7: for every overlap output array and every sorted skip array,
`p4est_tree_uniqify_overlap` sorts the output by `(which_tree, coords,
level)`, removes duplicate entries and every entry present in the skip list,
and leaves the surviving entries in that (now strictly) sorted order. -/
theorem claim_C7_uniqify_overlap (skip out : List PQuad)
    (hext : ∀ p ∈ out, IsExtQ p.toQuad)
    (hskip : skip.Pairwise (fun a b => compare_piggy a b ≤ 0)) :
    (p4est_tree_uniqify_overlap skip out).Pairwise
      (fun a b => compare_piggy a b < 0) ∧
    (∀ q : PQuad, q ∈ p4est_tree_uniqify_overlap skip out ↔
      (q ∈ out ∧ bsearch_found skip q = false)) := by
  have htrans : ∀ a b c : PQuad, decide (compare_piggy a b ≤ 0) = true →
      decide (compare_piggy b c ≤ 0) = true →
      decide (compare_piggy a c ≤ 0) = true := by
    intro a b c h1 h2
    rw [decide_eq_true_eq] at *
    exact compare_piggy_trans h1 h2
  have htotal : ∀ a b : PQuad,
      (decide (compare_piggy a b ≤ 0) || decide (compare_piggy b a ≤ 0)) = true := by
    intro a b
    rcases compare_piggy_total a b with h | h <;> simp [h]
  set s := out.mergeSort (fun a b => decide (compare_piggy a b ≤ 0)) with hs
  have hperm : s.Perm out := List.mergeSort_perm out _
  have hsorted : s.Pairwise (fun a b => compare_piggy a b ≤ 0) := by
    have := List.sorted_mergeSort htrans htotal out
    rw [← hs] at this
    exact this.imp (fun h => decide_eq_true_eq.mp h)
  have hexts : ∀ p ∈ s, IsExtQ p.toQuad := fun p hp =>
    hext p (hperm.mem_iff.mp hp)
  constructor
  · have hnd : (uniqLoop skip s).Nodup := uniqLoop_nodup hexts hsorted
    have hle : (uniqLoop skip s).Pairwise (fun a b => compare_piggy a b ≤ 0) :=
      hsorted.sublist (uniqLoop_sublist skip s)
    have hand := hle.and hnd
    refine hand.imp_of_mem ?_
    intro a b hma hmb hab
    have ha := hexts a ((uniqLoop_sublist skip s).mem hma)
    have hb := hexts b ((uniqLoop_sublist skip s).mem hmb)
    rcases Int.lt_or_lt_of_ne (fun h0 => hab.2 ((compare_piggy_eq_zero_iff_eq ha hb).mp h0)) with h | h
    · exact h
    · omega
  · intro q
    rw [show p4est_tree_uniqify_overlap skip out = uniqLoop skip s from rfl,
      uniqLoop_mem_iff, hperm.mem_iff]

/-- C9: `p4est_tree_uniqify_overlap` removes only entries that are exactly
equal under the piggy comparison or that appear in the skip list; in
particular an ancestor and a strict descendant of it tagged with the same
tree both survive the call. -/
theorem claim_C9_uniqify_keeps_ancestor_pairs (skip out : List PQuad)
    (p q : PQuad) (hp : p ∈ out) (hq : q ∈ out)
    (hpn : bsearch_found skip p = false) (hqn : bsearch_found skip q = false)
    (htree : p.which_tree = q.which_tree)
    (hanc : is_ancestor p.toQuad q.toQuad = true) :
    (∀ r ∈ out, bsearch_found skip r = false →
      r ∈ p4est_tree_uniqify_overlap skip out) ∧
    p ∈ p4est_tree_uniqify_overlap skip out ∧
    q ∈ p4est_tree_uniqify_overlap skip out := by
  have hkeep : ∀ r ∈ out, bsearch_found skip r = false →
      r ∈ p4est_tree_uniqify_overlap skip out := by
    intro r hr hnf
    exact uniqLoop_mem_of (List.mem_mergeSort.mpr hr) hnf
  exact ⟨hkeep, hkeep p hp hpn, hkeep q hq hqn⟩

/-- Witness for C7 at a concrete input: three duplicates, one
ancestor-descendant pair and a one-element skip list. -/
theorem claim_C7_uniqify_overlap_witness :
    (p4est_tree_uniqify_overlap [⟨2^29, 0, 1, 0⟩]
        [⟨0,0,1,0⟩, ⟨0,0,1,0⟩, ⟨0,0,1,0⟩, ⟨0,0,2,0⟩, ⟨2^29,0,1,0⟩]).Pairwise
      (fun a b => compare_piggy a b < 0) ∧
    (∀ q : PQuad, q ∈ p4est_tree_uniqify_overlap [⟨2^29, 0, 1, 0⟩]
        [⟨0,0,1,0⟩, ⟨0,0,1,0⟩, ⟨0,0,1,0⟩, ⟨0,0,2,0⟩, ⟨2^29,0,1,0⟩] ↔
      (q ∈ ([⟨0,0,1,0⟩, ⟨0,0,1,0⟩, ⟨0,0,1,0⟩, ⟨0,0,2,0⟩, ⟨2^29,0,1,0⟩] : List PQuad) ∧
        bsearch_found [⟨2^29, 0, 1, 0⟩] q = false)) :=
  claim_C7_uniqify_overlap _ _ (by decide) (by decide)

/-- Witness for C9 at a concrete input: an ancestor and its strict descendant,
tagged with the same tree, both survive. -/
theorem claim_C9_uniqify_keeps_ancestor_pairs_witness :
    (∀ r ∈ ([⟨0,0,1,0⟩, ⟨0,0,2,0⟩] : List PQuad), bsearch_found [] r = false →
      r ∈ p4est_tree_uniqify_overlap [] [⟨0,0,1,0⟩, ⟨0,0,2,0⟩]) ∧
    (⟨0,0,1,0⟩ : PQuad) ∈ p4est_tree_uniqify_overlap [] [⟨0,0,1,0⟩, ⟨0,0,2,0⟩] ∧
    (⟨0,0,2,0⟩ : PQuad) ∈ p4est_tree_uniqify_overlap [] [⟨0,0,1,0⟩, ⟨0,0,2,0⟩] :=
  claim_C9_uniqify_keeps_ancestor_pairs [] [⟨0,0,1,0⟩, ⟨0,0,2,0⟩]
    ⟨0,0,1,0⟩ ⟨0,0,2,0⟩ (by decide) (by decide) (by decide) (by decide)
    (by decide) (by decide)

/-! ### Ordering and ancestor facts used by linearization and completion -/

theorem qcompare_le_trans {a b c : Quadrant} (h1 : qcompare a b ≤ 0)
    (h2 : qcompare b c ≤ 0) : qcompare a c ≤ 0 := by
  unfold qcompare at *
  split_ifs at * <;> omega

theorem qcompare_lt_of_lt_of_le {a b c : Quadrant} (h1 : qcompare a b < 0)
    (h2 : qcompare b c ≤ 0) : qcompare a c < 0 := by
  unfold qcompare at *
  split_ifs at * <;> omega

theorem qcompare_lt_of_le_of_lt {a b c : Quadrant} (h1 : qcompare a b ≤ 0)
    (h2 : qcompare b c < 0) : qcompare a c < 0 := by
  unfold qcompare at *
  split_ifs at * <;> omega

theorem qcompare_asymm {a b : Quadrant} (h : qcompare a b < 0) :
    0 < qcompare b a := by
  unfold qcompare at *
  split_ifs at * <;> omega

theorem anc_qlt {a b : Quadrant} (ha : IsExtQ a) (hb : IsExtQ b)
    (h : is_ancestor a b = true) : qcompare a b < 0 := by
  rw [is_ancestor_iff_interval ha hb] at h
  obtain ⟨hl, h1, h2⟩ := h
  have e1 : lo a = mq a := rfl
  have e2 : lo b = mq b := rfl
  rw [qcompare_lt_iff]
  rcases Nat.eq_or_lt_of_le (e1 ▸ e2 ▸ h1 : mq a ≤ mq b) with heq | hlt
  · exact Or.inr ⟨heq, hl⟩
  · exact Or.inl hlt

theorem anc_trans {a b c : Quadrant} (ha : IsExtQ a) (hb : IsExtQ b)
    (hc : IsExtQ c) (h1 : is_ancestor a b = true) (h2 : is_ancestor b c = true) :
    is_ancestor a c = true := by
  rw [is_ancestor_iff_interval ha hb] at h1
  rw [is_ancestor_iff_interval hb hc] at h2
  rw [is_ancestor_iff_interval ha hc]
  exact ⟨by omega, by omega, by omega⟩

/-- Survivor step of the linearization loop: if `q1` is kept against its sorted
successor `q2` and `z` is `q2` or a descendant of it, then `q1` and `z` are
strictly ordered and unrelated. -/
theorem linearize_step {q1 q2 z : Quadrant} (h1 : IsExtQ q1) (h2 : IsExtQ q2)
    (hz : IsExtQ z) (hle : qcompare q1 q2 ≤ 0) (hne : q1 ≠ q2)
    (hnanc : is_ancestor q1 q2 = false)
    (hdesc : q2 = z ∨ is_ancestor q2 z = true) :
    qcompare q1 z < 0 ∧ is_ancestor q1 z = false := by
  have hne0 : qcompare q1 q2 ≠ 0 := fun h0 =>
    hne ((qcompare_eq_zero_iff_eq h1 h2).mp h0)
  have hlt : qcompare q1 q2 < 0 := by omega
  rcases hdesc with rfl | hanc
  · exact ⟨hlt, hnanc⟩
  · refine ⟨qcompare_lt_of_lt_of_le hlt (le_of_lt (anc_qlt h2 hz hanc)), ?_⟩
    by_contra hcon
    rw [Bool.not_eq_false] at hcon
    rw [is_ancestor_iff_interval h1 hz] at hcon
    rw [is_ancestor_iff_interval h2 hz] at hanc
    have hzlo := lo_lt_hi z
    rcases le_or_lt q1.level q2.level with hlev | hlev
    · have hnest := nested_of_overlap h1 h2 hlev (by omega) (by omega)
      rcases Nat.eq_or_lt_of_le hlev with heq | hlt2
      · have harea : area q1 = area q2 := by unfold area; rw [heq]
        have e1 : hi q1 = lo q1 + area q1 := rfl
        have e2 : hi q2 = lo q2 + area q2 := rfl
        have hmq : mq q1 = mq q2 := by
          have e3 : lo q1 = mq q1 := rfl
          have e4 : lo q2 = mq q2 := rfl
          omega
        obtain ⟨hx, hy⟩ := mq_inj h1 h2 hmq
        exact hne (by cases q1; cases q2; simp_all)
      · have : is_ancestor q1 q2 = true := by
          rw [is_ancestor_iff_interval h1 h2]
          exact ⟨hlt2, hnest⟩
        rw [hnanc] at this
        cases this
    · have hnest := nested_of_overlap h2 h1 (le_of_lt hlev) (by omega) (by omega)
      have hanc21 : is_ancestor q2 q1 = true := by
        rw [is_ancestor_iff_interval h2 h1]
        exact ⟨hlev, hnest⟩
      have := qcompare_asymm (anc_qlt h2 h1 hanc21)
      omega

/-! ### `p4est_linearize_tree` (C6) -/

/-- The compaction loop of `p4est_linearize_tree`: the current quadrant is
dropped when it equals or is an ancestor of its successor.  Returns the kept
quadrants and the removed quadrants, in order. -/
def linLoop : Quadrant → List Quadrant → List Quadrant × List Quadrant
  | q1, [] => ([q1], [])
  | q1, q2 :: rest =>
    if q1 = q2 ∨ is_ancestor q1 q2 = true then
      ((linLoop q2 rest).1, q1 :: (linLoop q2 rest).2)
    else
      (q1 :: (linLoop q2 rest).1, (linLoop q2 rest).2)

/-- Per-tree bookkeeping: leaf array, per-level histogram and `maxlevel`. -/
structure TreeState where
  quadrants : List Quadrant
  per_level : Nat → Int
  maxlevel : Nat

/-- Number of quadrants of level `lev` in `l`. -/
def countLevel (l : List Quadrant) (lev : Nat) : Int :=
  ((l.filter (fun q => q.level = lev)).length : Int)

/-- The maxlevel recomputation loop of `p4est_linearize_tree`: the last level
in `[0, P4EST_QMAXLEVEL]` with a positive count. -/
def recompute_maxlevel (pl : Nat → Int) : Nat :=
  (List.range 30).foldl (fun acc i => if 0 < pl i then i else acc) 0

/-- `p4est_linearize_tree` from `p4est_algorithms.c`: remove ancestors (and
duplicates) from the sorted leaf array, update the per-level counts, recompute
`maxlevel`, and return the number of removed quadrants. -/
def p4est_linearize_tree (t : TreeState) : TreeState × Nat :=
  match t.quadrants with
  | [] => (t, 0)
  | [_] => (t, 0)
  | q1 :: q2 :: rest =>
    let k := (linLoop q1 (q2 :: rest)).1
    let r := (linLoop q1 (q2 :: rest)).2
    let pl' : Nat → Int := fun l => t.per_level l - countLevel r l
    (⟨k, pl', recompute_maxlevel pl'⟩, r.length)

theorem linLoop_spec (rest : List Quadrant) (q1 : Quadrant)
    (hext : ∀ q ∈ q1 :: rest, IsExtQ q)
    (hchain : (q1 :: rest).Chain' (fun a b => qcompare a b ≤ 0)) :
    ((linLoop q1 rest).1 ++ (linLoop q1 rest).2).Perm (q1 :: rest) ∧
    (∃ z t, (linLoop q1 rest).1 = z :: t ∧ (q1 = z ∨ is_ancestor q1 z = true)) ∧
    (linLoop q1 rest).1.Chain'
      (fun a b => qcompare a b < 0 ∧ is_ancestor a b = false) := by
  induction rest generalizing q1 with
  | nil =>
    refine ⟨by simp [linLoop], ⟨q1, [], by simp [linLoop], Or.inl rfl⟩, ?_⟩
    simp [linLoop]
  | cons q2 rest' ih =>
    have hext' : ∀ q ∈ q2 :: rest', IsExtQ q := fun q hq =>
      hext q (List.mem_cons_of_mem _ hq)
    have hchain' : (q2 :: rest').Chain' (fun a b => qcompare a b ≤ 0) :=
      hchain.tail
    obtain ⟨ihperm, ⟨z, t, hzt, hdesc⟩, ihchain⟩ := ih q2 hext' hchain'
    have hle12 : qcompare q1 q2 ≤ 0 := (List.chain'_cons.mp hchain).1
    have hzmem : z ∈ q2 :: rest' := by
      have hz1 : z ∈ (linLoop q2 rest').1 := by
        rw [hzt]
        exact List.mem_cons_self z t
      exact ihperm.mem_iff.mp (List.mem_append_left _ hz1)
    unfold linLoop
    split
    · rename_i hrel
      refine ⟨?_, ⟨z, t, hzt, ?_⟩, ihchain⟩
      · exact List.perm_middle.trans (ihperm.cons q1)
      · rcases hrel with rfl | hanc
        · exact hdesc
        · rcases hdesc with rfl | hanc2
          · exact Or.inr hanc
          · exact Or.inr (anc_trans (hext q1 (List.mem_cons_self _ _))
              (hext' q2 (List.mem_cons_self _ _)) (hext' z hzmem) hanc hanc2)
    · rename_i hrel
      push_neg at hrel
      obtain ⟨hne, hnanc⟩ := hrel
      have hnanc' : is_ancestor q1 q2 = false := by simpa using hnanc
      have hstep := linearize_step (hext q1 (List.mem_cons_self _ _))
        (hext' q2 (List.mem_cons_self _ _)) (hext' z hzmem) hle12 hne hnanc' hdesc
      refine ⟨?_, ⟨q1, (linLoop q2 rest').1, rfl, Or.inl rfl⟩, ?_⟩
      · exact ihperm.cons q1
      · rw [hzt]
        rw [List.chain'_cons]
        exact ⟨hstep, hzt ▸ ihchain⟩

theorem linLoop_sublist (rest : List Quadrant) (q1 : Quadrant) :
    (linLoop q1 rest).1.Sublist (q1 :: rest) := by
  induction rest generalizing q1 with
  | nil => simp [linLoop]
  | cons q2 rest' ih =>
    unfold linLoop
    split
    · exact (ih q2).trans (List.sublist_cons_self _ _)
    · exact (ih q2).cons₂ q1

theorem countLevel_cons (q : Quadrant) (l : List Quadrant) (lev : Nat) :
    countLevel (q :: l) lev =
      countLevel l lev + (if q.level = lev then 1 else 0) := by
  unfold countLevel
  rw [List.filter_cons]
  split
  · rename_i h
    rw [decide_eq_true_eq] at h
    simp [h]
  · rename_i h
    rw [decide_eq_true_eq] at h
    simp [h]

theorem countLevel_append (l₁ l₂ : List Quadrant) (lev : Nat) :
    countLevel (l₁ ++ l₂) lev = countLevel l₁ lev + countLevel l₂ lev := by
  unfold countLevel
  rw [List.filter_append, List.length_append]
  push_cast
  ring

theorem countLevel_perm {l₁ l₂ : List Quadrant} (h : l₁.Perm l₂) (lev : Nat) :
    countLevel l₁ lev = countLevel l₂ lev := by
  unfold countLevel
  rw [(h.filter _).length_eq]

theorem countLevel_pos_of_mem {l : List Quadrant} {q : Quadrant} (h : q ∈ l) :
    0 < countLevel l q.level := by
  unfold countLevel
  have : q ∈ l.filter (fun r => r.level = q.level) :=
    List.mem_filter.mpr ⟨h, by simp⟩
  have := List.length_pos_of_mem this
  omega

theorem countLevel_mem_of_pos {l : List Quadrant} {lev : Nat}
    (h : 0 < countLevel l lev) : ∃ q ∈ l, q.level = lev := by
  unfold countLevel at h
  have hne : l.filter (fun r => r.level = lev) ≠ [] := by
    intro hcon
    rw [hcon] at h
    simp at h
  obtain ⟨q, hq⟩ := List.exists_mem_of_ne_nil _ hne
  have := List.mem_filter.mp hq
  exact ⟨q, this.1, by simpa using this.2⟩

theorem sum_countLevel (l : List Quadrant) (h : ∀ q ∈ l, q.level ≤ 29) :
    (∑ i ∈ Finset.range 30, countLevel l i) = (l.length : Int) := by
  induction l with
  | nil => simp [countLevel]
  | cons q rest ih =>
    have hq := h q (List.mem_cons_self _ _)
    have hrest := ih fun r hr => h r (List.mem_cons_of_mem _ hr)
    have hsum : (∑ i ∈ Finset.range 30, countLevel (q :: rest) i) =
        (∑ i ∈ Finset.range 30, countLevel rest i) +
        (∑ i ∈ Finset.range 30, if q.level = i then (1:Int) else 0) := by
      rw [← Finset.sum_add_distrib]
      exact Finset.sum_congr rfl fun i _ => countLevel_cons q rest i
    have hone : (∑ i ∈ Finset.range 30, if q.level = i then (1:Int) else 0) = 1 := by
      rw [Finset.sum_ite_eq]
      simp only [Finset.mem_range, if_pos (by omega : q.level < 30)]
    rw [hsum, hrest, hone]
    simp

theorem foldl_lastpos_spec (pl : Nat → Int) (n : Nat) :
    (∀ i < n, 0 < pl i →
      i ≤ (List.range n).foldl (fun acc i => if 0 < pl i then i else acc) 0) ∧
    ((List.range n).foldl (fun acc i => if 0 < pl i then i else acc) 0 = 0 ∨
      (0 < pl ((List.range n).foldl (fun acc i => if 0 < pl i then i else acc) 0) ∧
        (List.range n).foldl (fun acc i => if 0 < pl i then i else acc) 0 < n)) := by
  induction n with
  | zero => simp
  | succ n ih =>
    rw [List.range_succ, List.foldl_append]
    obtain ⟨ih1, ih2⟩ := ih
    simp only [List.foldl_cons, List.foldl_nil]
    split
    · rename_i hpos
      exact ⟨fun i hi _ => by omega, Or.inr ⟨hpos, by omega⟩⟩
    · rename_i hneg
      refine ⟨fun i hi hp => ?_, ?_⟩
      · rcases Nat.lt_succ_iff_lt_or_eq.mp hi with h | rfl
        · exact ih1 i h hp
        · exact absurd hp hneg
      · rcases ih2 with h | ⟨h1, h2⟩
        · exact Or.inl h
        · exact Or.inr ⟨h1, by omega⟩

/-- C6: on a sorted leaf array (ancestors and duplicates allowed),
`p4est_linearize_tree` removes each ancestor immediately followed by a
descendant and each exact duplicate, leaves the array sorted and linear,
returns the number of removed quadrants, and restores the per-level histogram
and `maxlevel`, so the remaining count is the input count minus the return
value. -/
theorem claim_C6_linearize_tree (t : TreeState)
    (hext : ∀ q ∈ t.quadrants, IsExtQ q)
    (hsorted : sc_array_is_sorted t.quadrants = true)
    (hhist : ∀ l, t.per_level l = countLevel t.quadrants l)
    (hmaxin : (∀ q ∈ t.quadrants, q.level ≤ t.maxlevel) ∧
      (t.maxlevel = 0 ∨ ∃ q ∈ t.quadrants, q.level = t.maxlevel)) :
    p4est_tree_is_sorted (p4est_linearize_tree t).1.quadrants = true ∧
    p4est_tree_is_linear (p4est_linearize_tree t).1.quadrants = true ∧
    (p4est_linearize_tree t).1.quadrants.Sublist t.quadrants ∧
    (p4est_linearize_tree t).1.quadrants.length + (p4est_linearize_tree t).2
      = t.quadrants.length ∧
    (∀ l, (p4est_linearize_tree t).1.per_level l
      = countLevel (p4est_linearize_tree t).1.quadrants l) ∧
    (∑ i ∈ Finset.range 30, (p4est_linearize_tree t).1.per_level i)
      = ((p4est_linearize_tree t).1.quadrants.length : Int) ∧
    (∀ q ∈ (p4est_linearize_tree t).1.quadrants,
      q.level ≤ (p4est_linearize_tree t).1.maxlevel) ∧
    ((p4est_linearize_tree t).1.maxlevel = 0 ∨
      ∃ q ∈ (p4est_linearize_tree t).1.quadrants,
        q.level = (p4est_linearize_tree t).1.maxlevel) := by
  have hlev29 : ∀ q ∈ t.quadrants, q.level ≤ 29 := fun q hq => (hext q hq).1
  have htriv : p4est_linearize_tree t = (t, 0) →
      p4est_tree_is_sorted t.quadrants = true →
      p4est_tree_is_linear t.quadrants = true →
      p4est_tree_is_sorted (p4est_linearize_tree t).1.quadrants = true ∧
      p4est_tree_is_linear (p4est_linearize_tree t).1.quadrants = true ∧
      (p4est_linearize_tree t).1.quadrants.Sublist t.quadrants ∧
      (p4est_linearize_tree t).1.quadrants.length + (p4est_linearize_tree t).2
        = t.quadrants.length ∧
      (∀ l, (p4est_linearize_tree t).1.per_level l
        = countLevel (p4est_linearize_tree t).1.quadrants l) ∧
      (∑ i ∈ Finset.range 30, (p4est_linearize_tree t).1.per_level i)
        = ((p4est_linearize_tree t).1.quadrants.length : Int) ∧
      (∀ q ∈ (p4est_linearize_tree t).1.quadrants,
        q.level ≤ (p4est_linearize_tree t).1.maxlevel) ∧
      ((p4est_linearize_tree t).1.maxlevel = 0 ∨
        ∃ q ∈ (p4est_linearize_tree t).1.quadrants,
          q.level = (p4est_linearize_tree t).1.maxlevel) := by
    intro hres0 hs hl
    rw [hres0]
    refine ⟨hs, hl, List.Sublist.refl _, by simp, hhist, ?_, hmaxin.1, hmaxin.2⟩
    rw [show (∑ i ∈ Finset.range 30, t.per_level i)
      = ∑ i ∈ Finset.range 30, countLevel t.quadrants i from
      Finset.sum_congr rfl fun i _ => hhist i]
    exact sum_countLevel t.quadrants hlev29
  rcases hq : t.quadrants with - | ⟨q1, rest0⟩
  · have hall := htriv (by unfold p4est_linearize_tree; rw [hq])
      (by rw [hq]; rfl) (by rw [hq]; rfl)
    rw [hq] at hall
    exact hall
  · rcases hr : rest0 with - | ⟨q2, rest⟩
    · subst hr
      have hall := htriv (by unfold p4est_linearize_tree; rw [hq])
        (by rw [hq]; rfl) (by rw [hq]; rfl)
      rw [hq] at hall
      exact hall
    · -- main case: at least two quadrants
      subst hr
      have hin : t.quadrants = q1 :: q2 :: rest := hq
      have hext2 : ∀ q ∈ q1 :: q2 :: rest, IsExtQ q := by
        rw [← hin]
        exact hext
      have hchain : (q1 :: q2 :: rest).Chain' (fun a b => qcompare a b ≤ 0) := by
        rw [← sc_array_is_sorted_iff_chain, ← hin]
        exact hsorted
      obtain ⟨hperm, ⟨z, tl, hzt, hdesc⟩, hchainout⟩ :=
        linLoop_spec (q2 :: rest) q1 hext2 hchain
      have hres : p4est_linearize_tree t =
          (⟨(linLoop q1 (q2 :: rest)).1,
            fun l => t.per_level l - countLevel (linLoop q1 (q2 :: rest)).2 l,
            recompute_maxlevel fun l =>
              t.per_level l - countLevel (linLoop q1 (q2 :: rest)).2 l⟩,
            (linLoop q1 (q2 :: rest)).2.length) := by
        unfold p4est_linearize_tree
        rw [hq]
      set kept := (linLoop q1 (q2 :: rest)).1 with hkept
      set rem := (linLoop q1 (q2 :: rest)).2 with hrem
      have hcount : ∀ l, countLevel kept l + countLevel rem l
          = countLevel t.quadrants l := by
        intro l
        rw [hin, ← countLevel_perm hperm l, countLevel_append]
      have hpl' : ∀ l, t.per_level l - countLevel rem l = countLevel kept l := by
        intro l
        rw [hhist l, ← hcount l]
        ring
      have hkext : ∀ q ∈ kept, IsExtQ q := fun q hq' =>
        hext2 q ((linLoop_sublist (q2 :: rest) q1).mem hq')
      have hklev : ∀ q ∈ kept, q.level ≤ 29 := fun q hq' => (hkext q hq').1
      have hlen : kept.length + rem.length = (q1 :: q2 :: rest).length := by
        have := hperm.length_eq
        rw [List.length_append] at this
        simpa using this
      obtain ⟨hfold1, hfold2⟩ :=
        foldl_lastpos_spec (fun l => t.per_level l - countLevel rem l) 30
      rw [hres]
      refine ⟨?_, ?_, ?_, ?_, ?_, ?_, ?_, ?_⟩
      · rw [tree_is_sorted_iff_chain]
        exact hchainout.imp fun {a b} h => h.1
      · rw [tree_is_linear_iff_chain]
        exact hchainout
      · exact linLoop_sublist (q2 :: rest) q1
      · exact hlen
      · exact hpl'
      · rw [show (∑ i ∈ Finset.range 30,
            (t.per_level i - countLevel rem i))
          = ∑ i ∈ Finset.range 30, countLevel kept i from
          Finset.sum_congr rfl fun i _ => hpl' i]
        exact sum_countLevel kept hklev
      · intro q hqk
        have hpos : 0 < t.per_level q.level - countLevel rem q.level := by
          rw [hpl']
          exact countLevel_pos_of_mem hqk
        exact hfold1 q.level (by have := hklev q hqk; omega) hpos
      · rcases hfold2 with h | ⟨h1, h2⟩
        · exact Or.inl h
        · right
          rw [hpl'] at h1
          exact countLevel_mem_of_pos h1

/-- Witness for C6 at a concrete input: a sorted array with an ancestor
followed by its descendant and a duplicate. -/
theorem claim_C6_linearize_tree_witness :
    p4est_tree_is_sorted (p4est_linearize_tree
      ⟨[⟨0,0,1⟩, ⟨0,0,2⟩, ⟨0,0,2⟩, ⟨2^29,0,1⟩],
        fun l => countLevel [⟨0,0,1⟩, ⟨0,0,2⟩, ⟨0,0,2⟩, ⟨2^29,0,1⟩] l,
        2⟩).1.quadrants = true ∧
    p4est_tree_is_linear (p4est_linearize_tree
      ⟨[⟨0,0,1⟩, ⟨0,0,2⟩, ⟨0,0,2⟩, ⟨2^29,0,1⟩],
        fun l => countLevel [⟨0,0,1⟩, ⟨0,0,2⟩, ⟨0,0,2⟩, ⟨2^29,0,1⟩] l,
        2⟩).1.quadrants = true ∧
    (p4est_linearize_tree
      ⟨[⟨0,0,1⟩, ⟨0,0,2⟩, ⟨0,0,2⟩, ⟨2^29,0,1⟩],
        fun l => countLevel [⟨0,0,1⟩, ⟨0,0,2⟩, ⟨0,0,2⟩, ⟨2^29,0,1⟩] l,
        2⟩).1.quadrants.Sublist [⟨0,0,1⟩, ⟨0,0,2⟩, ⟨0,0,2⟩, ⟨2^29,0,1⟩] ∧
    (p4est_linearize_tree
      ⟨[⟨0,0,1⟩, ⟨0,0,2⟩, ⟨0,0,2⟩, ⟨2^29,0,1⟩],
        fun l => countLevel [⟨0,0,1⟩, ⟨0,0,2⟩, ⟨0,0,2⟩, ⟨2^29,0,1⟩] l,
        2⟩).1.quadrants.length + (p4est_linearize_tree
      ⟨[⟨0,0,1⟩, ⟨0,0,2⟩, ⟨0,0,2⟩, ⟨2^29,0,1⟩],
        fun l => countLevel [⟨0,0,1⟩, ⟨0,0,2⟩, ⟨0,0,2⟩, ⟨2^29,0,1⟩] l,
        2⟩).2 = ([⟨0,0,1⟩, ⟨0,0,2⟩, ⟨0,0,2⟩, ⟨2^29,0,1⟩] : List Quadrant).length ∧
    (∀ l, (p4est_linearize_tree
      ⟨[⟨0,0,1⟩, ⟨0,0,2⟩, ⟨0,0,2⟩, ⟨2^29,0,1⟩],
        fun l => countLevel [⟨0,0,1⟩, ⟨0,0,2⟩, ⟨0,0,2⟩, ⟨2^29,0,1⟩] l,
        2⟩).1.per_level l
      = countLevel (p4est_linearize_tree
      ⟨[⟨0,0,1⟩, ⟨0,0,2⟩, ⟨0,0,2⟩, ⟨2^29,0,1⟩],
        fun l => countLevel [⟨0,0,1⟩, ⟨0,0,2⟩, ⟨0,0,2⟩, ⟨2^29,0,1⟩] l,
        2⟩).1.quadrants l) ∧
    (∑ i ∈ Finset.range 30, (p4est_linearize_tree
      ⟨[⟨0,0,1⟩, ⟨0,0,2⟩, ⟨0,0,2⟩, ⟨2^29,0,1⟩],
        fun l => countLevel [⟨0,0,1⟩, ⟨0,0,2⟩, ⟨0,0,2⟩, ⟨2^29,0,1⟩] l,
        2⟩).1.per_level i)
      = ((p4est_linearize_tree
      ⟨[⟨0,0,1⟩, ⟨0,0,2⟩, ⟨0,0,2⟩, ⟨2^29,0,1⟩],
        fun l => countLevel [⟨0,0,1⟩, ⟨0,0,2⟩, ⟨0,0,2⟩, ⟨2^29,0,1⟩] l,
        2⟩).1.quadrants.length : Int) ∧
    (∀ q ∈ (p4est_linearize_tree
      ⟨[⟨0,0,1⟩, ⟨0,0,2⟩, ⟨0,0,2⟩, ⟨2^29,0,1⟩],
        fun l => countLevel [⟨0,0,1⟩, ⟨0,0,2⟩, ⟨0,0,2⟩, ⟨2^29,0,1⟩] l,
        2⟩).1.quadrants,
      q.level ≤ (p4est_linearize_tree
      ⟨[⟨0,0,1⟩, ⟨0,0,2⟩, ⟨0,0,2⟩, ⟨2^29,0,1⟩],
        fun l => countLevel [⟨0,0,1⟩, ⟨0,0,2⟩, ⟨0,0,2⟩, ⟨2^29,0,1⟩] l,
        2⟩).1.maxlevel) ∧
    ((p4est_linearize_tree
      ⟨[⟨0,0,1⟩, ⟨0,0,2⟩, ⟨0,0,2⟩, ⟨2^29,0,1⟩],
        fun l => countLevel [⟨0,0,1⟩, ⟨0,0,2⟩, ⟨0,0,2⟩, ⟨2^29,0,1⟩] l,
        2⟩).1.maxlevel = 0 ∨
      ∃ q ∈ (p4est_linearize_tree
      ⟨[⟨0,0,1⟩, ⟨0,0,2⟩, ⟨0,0,2⟩, ⟨2^29,0,1⟩],
        fun l => countLevel [⟨0,0,1⟩, ⟨0,0,2⟩, ⟨0,0,2⟩, ⟨2^29,0,1⟩] l,
        2⟩).1.quadrants,
        q.level = (p4est_linearize_tree
      ⟨[⟨0,0,1⟩, ⟨0,0,2⟩, ⟨0,0,2⟩, ⟨2^29,0,1⟩],
        fun l => countLevel [⟨0,0,1⟩, ⟨0,0,2⟩, ⟨0,0,2⟩, ⟨2^29,0,1⟩] l,
        2⟩).1.maxlevel) :=
  claim_C6_linearize_tree
    ⟨[⟨0,0,1⟩, ⟨0,0,2⟩, ⟨0,0,2⟩, ⟨2^29,0,1⟩],
      fun l => countLevel [⟨0,0,1⟩, ⟨0,0,2⟩, ⟨0,0,2⟩, ⟨2^29,0,1⟩] l, 2⟩
    (by decide) (by decide) (fun l => rfl)
    (by refine ⟨?_, Or.inr ⟨⟨0,0,2⟩, by simp, rfl⟩⟩
        intro q hq
        fin_cases hq <;> simp)

/-! ### `p4est_is_valid` (C8, and the empty-range encoding of C5) -/

/-- Modelled from the spec (§4.1): first descendant at level `l`. -/
def first_descendant (q : Quadrant) (l : Nat) : Quadrant := ⟨q.x, q.y, l⟩

/-- Modelled from the spec (§4.1): last descendant at level `l`. -/
def last_descendant (q : Quadrant) (l : Nat) : Quadrant :=
  ⟨q.x + lenAt q.level - lenAt l, q.y + lenAt q.level - lenAt l, l⟩

/-- A `p4est_quadrant_t` used as a descendant cache; its level is a plain
`int8_t`, so the `memset(-1)` marker of `P4EST_QUADRANT_INIT` is encodable. -/
structure DescQ where
  x : Int
  y : Int
  level : Int
deriving DecidableEq, Repr

/-- The `P4EST_QUADRANT_INIT` memset(-1) marker. -/
def descINIT : DescQ := ⟨-1, -1, -1⟩

/-- An entry of `global_first_position`. -/
structure GFPos where
  which_tree : Int
  x : Int
  y : Int
deriving DecidableEq, Repr

/-- Per-tree data inspected by `p4est_is_valid`. -/
structure VTree where
  quadrants : List Quadrant
  quadrants_offset : Int
  per_level : Nat → Int
  maxlevel : Int
  first_desc : DescQ
  last_desc : DescQ

/-- The dummy tree produced by an out-of-range array access. -/
def dummyVTree : VTree := ⟨[], 0, fun _ => 0, 0, descINIT, descINIT⟩

/-- The per-process forest state inspected by `p4est_is_valid`. -/
structure Forest where
  num_procs : Nat
  rank : Nat
  first_local_tree : Int
  last_local_tree : Int
  trees : List VTree
  global_first_position : List GFPos
  global_first_quadrant : List Int
  local_num_quadrants : Int
  global_num_quadrants : Int

def Forest.gfp (p : Forest) (i : Nat) : GFPos :=
  p.global_first_position.getD i ⟨-1, -1, -1⟩

def Forest.treeAt (p : Forest) (i : Int) : VTree :=
  p.trees.getD i.toNat dummyVTree

/-- First block of `p4est_is_valid`: check the first tree in the global
partition. -/
def p4est_is_valid_check_first (p : Forest) : Option String :=
  if p.first_local_tree < 0 then
    if ¬(p.first_local_tree = -1 ∧ p.last_local_tree = -2) then
      some "p4est invalid empty tree range A"
    else none
  else
    if (p.gfp p.rank).which_tree ≠ p.first_local_tree then
      some "p4est invalid first tree\n"
    else
      (p.treeAt p.first_local_tree).quadrants.head?.elim none fun q =>
        if q.x ≠ (p.gfp p.rank).x ∨ q.y ≠ (p.gfp p.rank).y then
          some "p4est invalid low quadrant\n"
        else none

/-- Second block of `p4est_is_valid`: check the last tree in the global
partition. -/
def p4est_is_valid_check_last (p : Forest) : Option String :=
  if p.last_local_tree < 0 then
    if ¬(p.first_local_tree = -1 ∧ p.last_local_tree = -2) then
      some "p4est invalid empty tree range B"
    else none
  else
    if (p.gfp (p.rank + 1)).which_tree ≠ p.last_local_tree ∧
        (p.gfp (p.rank + 1)).which_tree ≠ p.last_local_tree + 1 then
      some "p4est invalid last tree\n"
    else if (p.gfp (p.rank + 1)).which_tree = p.last_local_tree + 1 ∧
        ¬((p.gfp (p.rank + 1)).x = 0 ∧ (p.gfp (p.rank + 1)).y = 0) then
      some "p4est invalid next coordinates\n"
    else
      (p.treeAt p.last_local_tree).quadrants.getLast?.elim none fun q =>
        if (p.gfp (p.rank + 1)).which_tree = p.last_local_tree then
          if ¬(is_next q ⟨(p.gfp (p.rank + 1)).x, (p.gfp (p.rank + 1)).y, 29⟩ = true) then
            some "p4est invalid next quadrant\n"
          else none
        else
          if (last_descendant q 29).x + lenAt 29 ≠ rootLen ∨
              (last_descendant q 29).y + lenAt 29 ≠ rootLen then
            some "p4est invalid last quadrant\n"
          else none

/-- Per-tree checks of `p4est_is_valid` that depend on the tree position. -/
def p4est_is_valid_tree_inner (firstT lastT jt : Int) (tr : VTree) :
    Option String :=
  match tr.quadrants.head? with
  | none =>
    if descINIT.level ≠ tr.first_desc.level ∨
        descINIT.level ≠ tr.last_desc.level then
      some "p4est invalid empty descendant\n"
    else none
  | some q =>
    if jt < firstT ∨ jt > lastT then some "p4est invalid outside count\n"
    else if ¬(tr.first_desc = ⟨(first_descendant q 29).x,
        (first_descendant q 29).y, 29⟩) then
      some "p4est invalid first tree descendant\n"
    else
      tr.quadrants.getLast?.elim none fun ql =>
        if ¬(tr.last_desc = ⟨(last_descendant ql 29).x,
            (last_descendant ql 29).y, 29⟩) then
          some "p4est invalid last tree descendant\n"
        else none

/-- Per-tree loop of `p4est_is_valid`; threads the cumulative quadrant count
and reports the first failure. -/
def p4est_is_valid_tree_loop (firstT lastT : Int) :
    List VTree → Int → Int → Except String Int
  | [], _, lq => .ok lq
  | tr :: rest, jt, lq =>
    if tr.quadrants_offset ≠ lq then .error "p4est invalid quadrants offset\n"
    else if ¬(p4est_tree_is_complete tr.quadrants = true) then
      .error "p4est invalid not complete\n"
    else
      match p4est_is_valid_tree_inner firstT lastT jt tr with
      | some l => .error l
      | none =>
        let nq : Int := (List.range 30).foldl (fun a i => a + tr.per_level i) 0
        let ml : Nat := recompute_maxlevel tr.per_level
        if (ml : Int) ≠ tr.maxlevel then .error "p4est invalid wrong maxlevel\n"
        else if nq ≠ (tr.quadrants.length : Int) then
          .error "p4est invalid tree quadrant count\n"
        else p4est_is_valid_tree_loop firstT lastT rest (jt + 1) (lq + nq)

/-- Final count checks of `p4est_is_valid`. -/
def p4est_is_valid_check_counts (p : Forest) (lq : Int) : Option String :=
  if lq ≠ p.local_num_quadrants then some "p4est invalid local quadrant count\n"
  else if p.global_first_quadrant.getD 0 0 ≠ 0 ∨
      p.global_first_quadrant.getD p.num_procs 0 ≠ p.global_num_quadrants then
    some "p4est invalid global quadrant index\n"
  else none

/-- The local (per-process) body of `p4est_is_valid`: the first failing check
with its diagnostic label, or `none` when every check passes. -/
def p4est_is_valid_local (p : Forest) : Option String :=
  match p4est_is_valid_check_first p with
  | some l => some l
  | none =>
    match p4est_is_valid_check_last p with
    | some l => some l
    | none =>
      match p4est_is_valid_tree_loop p.first_local_tree p.last_local_tree
          p.trees 0 0 with
      | .error l => some l
      | .ok lq => p4est_is_valid_check_counts p lq

/-- Modelled from the spec (§6): `p4est_comm_sync_flag` with `MPI_BOR`
reduces the per-process flags with logical OR. -/
def p4est_comm_sync_flag_bor (flags : List Bool) : Bool := flags.any id

/-- The value `p4est_is_valid` returns on rank `r` of the ensemble `ps`:
the negation of the OR-reduced failure flag. -/
def p4est_is_valid_on (ps : List Forest) (_r : Nat) : Bool :=
  !(p4est_comm_sync_flag_bor (ps.map fun p => (p4est_is_valid_local p).isSome))


/-- All diagnostic labels `p4est_is_valid` can emit. -/
def p4est_is_valid_labels : List String :=
  ["p4est invalid empty tree range A",
   "p4est invalid first tree\n",
   "p4est invalid low quadrant\n",
   "p4est invalid empty tree range B",
   "p4est invalid last tree\n",
   "p4est invalid next coordinates\n",
   "p4est invalid next quadrant\n",
   "p4est invalid last quadrant\n",
   "p4est invalid quadrants offset\n",
   "p4est invalid not complete\n",
   "p4est invalid outside count\n",
   "p4est invalid first tree descendant\n",
   "p4est invalid last tree descendant\n",
   "p4est invalid empty descendant\n",
   "p4est invalid wrong maxlevel\n",
   "p4est invalid tree quadrant count\n",
   "p4est invalid local quadrant count\n",
   "p4est invalid global quadrant index\n"]

theorem check_first_label {p : Forest} {l : String}
    (h : p4est_is_valid_check_first p = some l) : l ∈ p4est_is_valid_labels := by
  unfold p4est_is_valid_check_first at h
  rcases hm : (p.treeAt p.first_local_tree).quadrants.head? with - | q <;>
    rw [hm] at h <;>
    simp only [Option.elim] at h <;>
    split_ifs at h <;>
    first
      | (injection h with h
         subst h
         simp [p4est_is_valid_labels])
      | exact absurd h (by simp)

theorem check_last_label {p : Forest} {l : String}
    (h : p4est_is_valid_check_last p = some l) : l ∈ p4est_is_valid_labels := by
  unfold p4est_is_valid_check_last at h
  rcases hm : (p.treeAt p.last_local_tree).quadrants.getLast? with - | q <;>
    rw [hm] at h <;>
    simp only [Option.elim] at h <;>
    split_ifs at h <;>
    first
      | (injection h with h
         subst h
         simp [p4est_is_valid_labels])
      | exact absurd h (by simp)

theorem tree_inner_label {firstT lastT jt : Int} {tr : VTree} {l : String}
    (h : p4est_is_valid_tree_inner firstT lastT jt tr = some l) :
    l ∈ p4est_is_valid_labels := by
  unfold p4est_is_valid_tree_inner at h
  rcases hm : tr.quadrants.head? with - | q <;>
    rw [hm] at h <;>
    simp only [Option.elim] at h
  · split_ifs at h
    injection h with h
    subst h
    simp [p4est_is_valid_labels]
  · rcases hg : tr.quadrants.getLast? with - | ql <;>
      rw [hg] at h <;>
      simp only [Option.elim] at h <;>
      split_ifs at h <;>
      first
        | (injection h with h
           subst h
           simp [p4est_is_valid_labels])
        | exact absurd h (by simp)

theorem tree_loop_label (firstT lastT : Int) (trees : List VTree) :
    ∀ (jt lq : Int) (l : String),
      p4est_is_valid_tree_loop firstT lastT trees jt lq = .error l →
      l ∈ p4est_is_valid_labels := by
  induction trees with
  | nil =>
    intro jt lq l h
    simp [p4est_is_valid_tree_loop] at h
  | cons tr rest ih =>
    intro jt lq l h
    unfold p4est_is_valid_tree_loop at h
    split_ifs at h
    all_goals first
      | (injection h with h
         subst h
         simp [p4est_is_valid_labels])
      | (rcases hm : p4est_is_valid_tree_inner firstT lastT jt tr with - | li <;>
           rw [hm] at h <;>
           simp only [] at h
         · split_ifs at h <;>
             first
               | (injection h with h
                  subst h
                  simp [p4est_is_valid_labels])
               | exact ih _ _ _ h
         · injection h with h
           subst h
           exact tree_inner_label hm)

theorem check_counts_label {p : Forest} {lq : Int} {l : String}
    (h : p4est_is_valid_check_counts p lq = some l) : l ∈ p4est_is_valid_labels := by
  unfold p4est_is_valid_check_counts at h
  split_ifs at h <;>
    · injection h with h
      subst h
      simp [p4est_is_valid_labels]

theorem is_valid_local_label {p : Forest} {l : String}
    (h : p4est_is_valid_local p = some l) : l ∈ p4est_is_valid_labels := by
  unfold p4est_is_valid_local at h
  rcases h1 : p4est_is_valid_check_first p with - | l1 <;> rw [h1] at h
  case some =>
    injection h with h
    subst h
    exact check_first_label h1
  rcases h2 : p4est_is_valid_check_last p with - | l2 <;> rw [h2] at h
  case some =>
    injection h with h
    subst h
    exact check_last_label h2
  rcases h3 : p4est_is_valid_tree_loop p.first_local_tree p.last_local_tree
      p.trees 0 0 with l3 | lq <;> rw [h3] at h
  case error =>
    injection h with h
    subst h
    exact tree_loop_label _ _ _ _ _ _ h3
  case ok =>
    exact check_counts_label h


/-- C8: `p4est_is_valid` returns false whenever any of its validity checks
fails on any process (empty-range encoding, first/last tree, low/high
quadrant, completeness, quadrants offset, maxlevel, per-level counts,
local and global quadrant counts), each failure surfaces a distinct
diagnostic label, and the returned value is the OR-reduction over all
processes, so every process returns the same result. -/
theorem claim_C8_is_valid (ps : List Forest) :
    (∀ r r' : Nat, p4est_is_valid_on ps r = p4est_is_valid_on ps r') ∧
    (p4est_is_valid_on ps 0 = false ↔ ∃ p ∈ ps, p4est_is_valid_local p ≠ none) ∧
    (∀ p ∈ ps, ∀ l : String, p4est_is_valid_local p = some l →
      l ∈ p4est_is_valid_labels) ∧
    p4est_is_valid_labels.Nodup := by
  refine ⟨fun r r' => rfl, ?_, fun p _ l h => is_valid_local_label h, by decide⟩
  unfold p4est_is_valid_on p4est_comm_sync_flag_bor
  rw [Bool.not_eq_false']
  rw [List.any_eq_true]
  constructor
  · rintro ⟨b, hb, hbt⟩
    obtain ⟨p, hp, rfl⟩ := List.mem_map.mp hb
    refine ⟨p, hp, ?_⟩
    simp only [id] at hbt
    intro hcon
    rw [hcon] at hbt
    simp at hbt
  · rintro ⟨p, hp, hne⟩
    refine ⟨(p4est_is_valid_local p).isSome, List.mem_map.mpr ⟨p, hp, rfl⟩, ?_⟩
    simp only [id]
    rcases hm : p4est_is_valid_local p with - | l
    · exact absurd hm hne
    · simp

/-! ### `p4est_partition_given` (C2, C4, C5) -/

/-- Input state of `p4est_partition_given`: the old per-process leaf
sequences (tree-major, tagged with their tree), the old global quadrant
offsets, and the requested new per-process counts. -/
structure PartitionIn where
  num_procs : Nat
  locals : Nat → List PQuad
  gfq : Nat → Int
  counts : Nat → Int

/-- `global_last_quad_index[i] = global_first_quadrant[i+1] - 1`. -/
def old_last (P : PartitionIn) (i : Nat) : Int := P.gfq (i + 1) - 1

/-- `new_global_last_quad_index`, the running prefix sums of the requested
counts minus one. -/
def new_last (P : PartitionIn) : Nat → Int
  | 0 => P.counts 0 - 1
  | i + 1 => P.counts (i + 1) + new_last P i

/-- One boundary term of the shipped-quadrants computation. -/
def shipped_contrib (P : PartitionIn) (i : Nat) : Int :=
  if 0 ≤ old_last P (i - 1) - new_last P (i - 1) then
    min (old_last P (i - 1) - new_last P (i - 1)) (P.counts i)
  else
    min (-(old_last P (i - 1) - new_last P (i - 1))) (P.counts (i - 1))

/-- `total_quadrants_shipped` as computed by `p4est_partition_given`. -/
def total_shipped (P : PartitionIn) : Int :=
  ∑ i ∈ Finset.Ico 1 P.num_procs, shipped_contrib P i

/-- Start of the old global range of process `p`. -/
def oldBegin (P : PartitionIn) (p : Nat) : Int :=
  if p = 0 then 0 else old_last P (p - 1) + 1

/-- Start of the new global range of process `r`. -/
def newBegin (P : PartitionIn) (r : Nat) : Int :=
  if r = 0 then 0 else new_last P (r - 1) + 1

/-- The chunk of quadrants process `p` contributes to process `r` under the
new partition: the overlap of `p`'s old range with `r`'s new range, cut out
of `p`'s local array exactly as the send-buffer packing does. -/
def chunkFor (P : PartitionIn) (p r : Nat) : List PQuad :=
  if oldBegin P p ≤ new_last P r ∧ old_last P p ≥ newBegin P r then
    ((P.locals p).drop
        (max (newBegin P r) (oldBegin P p) - oldBegin P p).toNat).take
      (min (new_last P r) (old_last P p) -
        max (newBegin P r) (oldBegin P p) + 1).toNat
  else []

/-- The leaf sequence owned by rank `r` after `p4est_partition_given`:
the received chunks in source-rank order. -/
def newLocal (P : PartitionIn) (r : Nat) : List PQuad :=
  ((List.range P.num_procs).map fun p => chunkFor P p r).flatten

/-- `P4EST_TOPIDX_MAX`. -/
def topidxMax : Int := 2 ^ 31 - 1

/-- The `new_first_local_tree` / `new_last_local_tree` bookkeeping of
`p4est_partition_given`: fold min/max over the trees with received
quadrants, then encode an empty range as `(-1, -2)`. -/
def newFirstLast (P : PartitionIn) (r : Nat) : Int × Int :=
  let tags := ((newLocal P r).map fun q => q.which_tree)
  let fl := tags.foldl (fun acc t => (min acc.1 t, max acc.2 t)) (topidxMax, 0)
  if fl.1 > fl.2 then (-1, -2) else fl

theorem new_last_of_count_zero (P : PartitionIn) (r : Nat)
    (hcnt : P.counts r = 0) : new_last P r = newBegin P r - 1 := by
  rcases r with - | s
  · unfold new_last newBegin
    rw [if_pos rfl]
    omega
  · show P.counts (s + 1) + new_last P s = newBegin P (s + 1) - 1
    unfold newBegin
    rw [if_neg (by omega)]
    rw [show s + 1 - 1 = s from rfl]
    omega

theorem chunkFor_empty (P : PartitionIn) (p r : Nat) (hcnt : P.counts r = 0) :
    chunkFor P p r = [] := by
  have hme := new_last_of_count_zero P r hcnt
  unfold chunkFor
  split_ifs with hc
  · have hcount : (min (new_last P r) (old_last P p) -
        max (newBegin P r) (oldBegin P p) + 1).toNat = 0 := by
      have h1 : min (new_last P r) (old_last P p) ≤ new_last P r :=
        min_le_left _ _
      have h2 : newBegin P r ≤ max (newBegin P r) (oldBegin P p) :=
        le_max_left _ _
      omega
    rw [hcount]
    simp
  · rfl

/-- C5: after `p4est_partition_given`, a process that holds no quadrants
under the new partition gets the tree range `first_local_tree = -1`,
`last_local_tree = -2`, and `p4est_is_valid` accepts exactly this encoding
for an empty partition: any other negative tree range is reported as a
failure. -/
theorem claim_C5_empty_partition_encoding (P : PartitionIn) (r : Nat)
    (f : Forest) (hcnt : P.counts r = 0) :
    newLocal P r = [] ∧
    newFirstLast P r = (-1, -2) ∧
    ((f.first_local_tree = -1 ∧ f.last_local_tree = -2) →
      p4est_is_valid_check_first f = none ∧
      p4est_is_valid_check_last f = none) ∧
    ((f.first_local_tree < 0 ∨ f.last_local_tree < 0) →
      ¬(f.first_local_tree = -1 ∧ f.last_local_tree = -2) →
      p4est_is_valid_local f ≠ none) := by
  have hempty : newLocal P r = [] := by
    unfold newLocal
    rw [List.flatten_eq_nil_iff]
    intro l hl
    obtain ⟨p, -, rfl⟩ := List.mem_map.mp hl
    exact chunkFor_empty P p r hcnt
  refine ⟨hempty, ?_, ?_, ?_⟩
  · unfold newFirstLast
    rw [hempty]
    simp only [List.map_nil, List.foldl_nil]
    rw [if_pos (by unfold topidxMax; norm_num)]
  · rintro ⟨h1, h2⟩
    constructor
    · unfold p4est_is_valid_check_first
      rw [if_pos (by omega), if_neg (not_not_intro ⟨h1, h2⟩)]
    · unfold p4est_is_valid_check_last
      rw [if_pos (by omega), if_neg (not_not_intro ⟨h1, h2⟩)]
  · intro hneg hne
    rcases lt_or_le f.first_local_tree 0 with hf | hf
    · have hcf : p4est_is_valid_check_first f =
          some "p4est invalid empty tree range A" := by
        unfold p4est_is_valid_check_first
        rw [if_pos hf, if_pos hne]
      unfold p4est_is_valid_local
      rw [hcf]
      simp
    · have hl : f.last_local_tree < 0 := by
        rcases hneg with h | h
        · omega
        · exact h
      have hcl : p4est_is_valid_check_last f =
          some "p4est invalid empty tree range B" := by
        unfold p4est_is_valid_check_last
        rw [if_pos hl, if_pos hne]
      unfold p4est_is_valid_local
      rcases hcf : p4est_is_valid_check_first f with - | l1
      · rw [hcl]
        simp
      · simp

/-- Witness for C5 at a concrete input: two processes, all counts zero, and
a forest with the legal empty encoding as well as the failing ranges. -/
theorem claim_C5_empty_partition_encoding_witness :
    newLocal ⟨2, fun _ => [], fun _ => 0, fun _ => 0⟩ 0 = [] ∧
    newFirstLast ⟨2, fun _ => [], fun _ => 0, fun _ => 0⟩ 0 = (-1, -2) ∧
    (((⟨1, 0, -1, -2, [], [], [], 0, 0⟩ : Forest).first_local_tree = -1 ∧
      (⟨1, 0, -1, -2, [], [], [], 0, 0⟩ : Forest).last_local_tree = -2) →
      p4est_is_valid_check_first ⟨1, 0, -1, -2, [], [], [], 0, 0⟩ = none ∧
      p4est_is_valid_check_last ⟨1, 0, -1, -2, [], [], [], 0, 0⟩ = none) ∧
    (((⟨1, 0, -1, -2, [], [], [], 0, 0⟩ : Forest).first_local_tree < 0 ∨
      (⟨1, 0, -1, -2, [], [], [], 0, 0⟩ : Forest).last_local_tree < 0) →
      ¬((⟨1, 0, -1, -2, [], [], [], 0, 0⟩ : Forest).first_local_tree = -1 ∧
        (⟨1, 0, -1, -2, [], [], [], 0, 0⟩ : Forest).last_local_tree = -2) →
      p4est_is_valid_local ⟨1, 0, -1, -2, [], [], [], 0, 0⟩ ≠ none) :=
  claim_C5_empty_partition_encoding ⟨2, fun _ => [], fun _ => 0, fun _ => 0⟩ 0
    ⟨1, 0, -1, -2, [], [], [], 0, 0⟩ rfl

/-! ### The shipped-quadrant count of `p4est_partition_given` (C4) -/

/-- New partition boundaries: prefix sums of the requested counts. -/
def Bnew (P : PartitionIn) : Nat → Int
  | 0 => 0
  | i + 1 => Bnew P i + P.counts i

theorem new_last_eq_Bnew (P : PartitionIn) (i : Nat) :
    new_last P i = Bnew P (i + 1) - 1 := by
  induction i with
  | zero =>
    show P.counts 0 - 1 = Bnew P 0 + P.counts 0 - 1
    show P.counts 0 - 1 = 0 + P.counts 0 - 1
    omega
  | succ i ih =>
    show P.counts (i + 1) + new_last P i = Bnew P (i + 1) + P.counts (i + 1) - 1
    omega

theorem Bnew_mono (P : PartitionIn) (hcnt : ∀ i, i < P.num_procs → 0 ≤ P.counts i) :
    ∀ i j, i ≤ j → j ≤ P.num_procs → Bnew P i ≤ Bnew P j := by
  intro i j hij hjP
  induction j with
  | zero =>
    have : i = 0 := by omega
    subst this
    exact le_refl _
  | succ j ih =>
    rcases Nat.eq_or_lt_of_le hij with rfl | hlt
    · exact le_refl _
    · have h1 : Bnew P i ≤ Bnew P j := ih (by omega) (by omega)
      have h2 : 0 ≤ P.counts j := hcnt j (by omega)
      show Bnew P i ≤ Bnew P j + P.counts j
      omega

/-- Which process owns global index `g` under boundaries `B`: the number of
interior boundaries at or below `g`. -/
def ownerAt (B : Nat → Int) (Pn : Nat) (g : Int) : Nat :=
  ((Finset.Ico 1 Pn).filter fun i => B i ≤ g).card

/-- The value `p4est_partition_given` returns on rank `r`; it is computed
from the replicated partition tables only. -/
def p4est_partition_given_return (P : PartitionIn) (_r : Nat) : Int :=
  total_shipped P

theorem ownerAt_eq {B : Nat → Int} {Pn : Nat} {g : Int} {j : Nat}
    (hmono : ∀ i k, i ≤ k → k ≤ Pn → B i ≤ B k) (hj : j < Pn)
    (h1 : B j ≤ g) (h2 : g < B (j + 1)) : ownerAt B Pn g = j := by
  unfold ownerAt
  have hset : (Finset.Ico 1 Pn).filter (fun i => B i ≤ g) = Finset.Ico 1 (j + 1) := by
    ext i
    simp only [Finset.mem_filter, Finset.mem_Ico]
    constructor
    · rintro ⟨⟨hi1, hi2⟩, hile⟩
      refine ⟨hi1, ?_⟩
      by_contra hcon
      push_neg at hcon
      have : B (j + 1) ≤ B i := hmono (j + 1) i (by omega) (by omega)
      omega
    · rintro ⟨hi1, hi2⟩
      have : B i ≤ B j := hmono i j (by omega) (by omega)
      exact ⟨⟨hi1, by omega⟩, by omega⟩
  rw [hset, Nat.card_Ico]
  omega

theorem exists_owner {B : Nat → Int} {Pn : Nat} {g : Int}
    (hP : 1 ≤ Pn) (hmono : ∀ i k, i ≤ k → k ≤ Pn → B i ≤ B k)
    (h0 : B 0 ≤ g) (hN : g < B Pn) :
    ∃ j, j < Pn ∧ B j ≤ g ∧ g < B (j + 1) := by
  induction Pn with
  | zero => omega
  | succ n ih =>
    rcases Nat.eq_zero_or_pos n with rfl | hn
    · exact ⟨0, by omega, h0, hN⟩
    · by_cases hc : B n ≤ g
      · exact ⟨n, by omega, hc, hN⟩
      · push_neg at hc
        obtain ⟨j, hj1, hj2, hj3⟩ := ih hn
          (fun i k hik hkn => hmono i k hik (by omega)) hc
        exact ⟨j, by omega, hj2, hj3⟩

/-- C4: `p4est_partition_given` returns the total count of migrated leaves:
the number of quadrants whose owning process differs between the old
partition (`global_first_quadrant`) and the new partition (prefix sums of
the requested counts); the value is computed from the replicated partition
tables only, hence every process returns the same value. -/
theorem claim_C4_partition_shipped (P : PartitionIn)
    (hP : 1 ≤ P.num_procs)
    (hgfq0 : P.gfq 0 = 0)
    (hmono : ∀ i j, i ≤ j → j ≤ P.num_procs → P.gfq i ≤ P.gfq j)
    (hcnt : ∀ i, i < P.num_procs → 0 ≤ P.counts i)
    (hN : Bnew P P.num_procs = P.gfq P.num_procs) :
    (∀ r r' : Nat, p4est_partition_given_return P r
      = p4est_partition_given_return P r') ∧
    p4est_partition_given_return P 0 =
      (((Finset.Ico (0:ℤ) (P.gfq P.num_procs)).filter fun g =>
        ownerAt P.gfq P.num_procs g ≠ ownerAt (Bnew P) P.num_procs g).card : ℤ) := by
  refine ⟨fun r r' => rfl, ?_⟩
  have hBmono : ∀ i j, i ≤ j → j ≤ P.num_procs → Bnew P i ≤ Bnew P j :=
    Bnew_mono P hcnt
  have hB0 : Bnew P 0 = 0 := rfl
  -- owner characterizations
  have hcharOld : ∀ g : ℤ, 0 ≤ g → g < P.gfq P.num_procs →
      ownerAt P.gfq P.num_procs g < P.num_procs ∧
      P.gfq (ownerAt P.gfq P.num_procs g) ≤ g ∧
      g < P.gfq (ownerAt P.gfq P.num_procs g + 1) := by
    intro g hg0 hgN
    obtain ⟨j, hj1, hj2, hj3⟩ := exists_owner hP hmono (by omega) hgN
    rw [ownerAt_eq hmono hj1 hj2 hj3]
    exact ⟨hj1, hj2, hj3⟩
  have hcharNew : ∀ g : ℤ, 0 ≤ g → g < P.gfq P.num_procs →
      ownerAt (Bnew P) P.num_procs g < P.num_procs ∧
      Bnew P (ownerAt (Bnew P) P.num_procs g) ≤ g ∧
      g < Bnew P (ownerAt (Bnew P) P.num_procs g + 1) := by
    intro g hg0 hgN
    have h0' : Bnew P 0 ≤ g := by rw [hB0]; exact hg0
    have hN' : g < Bnew P P.num_procs := by rw [hN]; exact hgN
    obtain ⟨j, hj1, hj2, hj3⟩ := exists_owner hP hBmono h0' hN'
    rw [ownerAt_eq hBmono hj1 hj2 hj3]
    exact ⟨hj1, hj2, hj3⟩
  -- the per-boundary crossing sets
  set f : Nat → Finset ℤ := fun i =>
    Finset.Ico (Bnew P i) (min (P.gfq i) (Bnew P (i + 1))) ∪
    Finset.Ico (max (P.gfq i) (Bnew P (i - 1))) (Bnew P i) with hf
  have hmem : ∀ i, 1 ≤ i → i < P.num_procs → ∀ g : ℤ, g ∈ f i →
      0 ≤ g ∧ g < P.gfq P.num_procs ∧
      ((ownerAt (Bnew P) P.num_procs g = i ∧ ownerAt P.gfq P.num_procs g < i) ∨
       (ownerAt (Bnew P) P.num_procs g = i - 1 ∧ i ≤ ownerAt P.gfq P.num_procs g)) := by
    intro i hi1 hi2 g hg
    rw [hf] at hg
    simp only [Finset.mem_union, Finset.mem_Ico] at hg
    rcases hg with ⟨h1, h2⟩ | ⟨h1, h2⟩
    · have hg0 : 0 ≤ g := le_trans (by rw [← hB0]; exact hBmono 0 i (by omega) (by omega)) h1
      have hgN : g < P.gfq P.num_procs := by
        have : Bnew P (i + 1) ≤ Bnew P P.num_procs := hBmono (i + 1) _ (by omega) (le_refl _)
        omega
      have hnew : ownerAt (Bnew P) P.num_procs g = i :=
        ownerAt_eq hBmono hi2 h1 (by omega)
      obtain ⟨ho1, ho2, ho3⟩ := hcharOld g hg0 hgN
      refine ⟨hg0, hgN, Or.inl ⟨hnew, ?_⟩⟩
      by_contra hcon
      push_neg at hcon
      have : P.gfq i ≤ P.gfq (ownerAt P.gfq P.num_procs g) :=
        hmono i _ hcon (by omega)
      omega
    · have hg0 : 0 ≤ g := by
        have : (0:ℤ) ≤ P.gfq i := by rw [← hgfq0]; exact hmono 0 i (by omega) (by omega)
        omega
      have hgN : g < P.gfq P.num_procs := by
        have : Bnew P i ≤ Bnew P P.num_procs := hBmono i _ (by omega) (le_refl _)
        omega
      have hii : i - 1 + 1 = i := by omega
      have hnew : ownerAt (Bnew P) P.num_procs g = i - 1 := by
        refine ownerAt_eq hBmono (by omega) (by omega) ?_
        rw [hii]
        omega
      obtain ⟨ho1, ho2, ho3⟩ := hcharOld g hg0 hgN
      refine ⟨hg0, hgN, Or.inr ⟨hnew, ?_⟩⟩
      by_contra hcon
      push_neg at hcon
      have : P.gfq (ownerAt P.gfq P.num_procs g + 1) ≤ P.gfq i :=
        hmono _ i (by omega) (by omega)
      omega
  have hdisj : ∀ i ∈ Finset.Ico 1 P.num_procs, ∀ j ∈ Finset.Ico 1 P.num_procs,
      i ≠ j → Disjoint (f i) (f j) := by
    intro i hi j hj hij
    rw [Finset.mem_Ico] at hi hj
    rw [Finset.disjoint_left]
    intro g hgi hgj
    obtain ⟨-, -, hcase1⟩ := hmem i hi.1 hi.2 g hgi
    obtain ⟨-, -, hcase2⟩ := hmem j hj.1 hj.2 g hgj
    rcases hcase1 with ⟨hn1, ho1⟩ | ⟨hn1, ho1⟩ <;>
      rcases hcase2 with ⟨hn2, ho2⟩ | ⟨hn2, ho2⟩ <;> omega
  have hM : (Finset.Ico (0:ℤ) (P.gfq P.num_procs)).filter (fun g =>
      ownerAt P.gfq P.num_procs g ≠ ownerAt (Bnew P) P.num_procs g) =
      (Finset.Ico 1 P.num_procs).biUnion f := by
    ext g
    simp only [Finset.mem_filter, Finset.mem_Ico, Finset.mem_biUnion]
    constructor
    · rintro ⟨⟨hg0, hgN⟩, hne⟩
      obtain ⟨ho1, ho2, ho3⟩ := hcharOld g hg0 hgN
      obtain ⟨hn1, hn2, hn3⟩ := hcharNew g hg0 hgN
      rcases Nat.lt_or_ge (ownerAt P.gfq P.num_procs g)
          (ownerAt (Bnew P) P.num_procs g) with hlt | hge
      · refine ⟨ownerAt (Bnew P) P.num_procs g, ?_, ?_⟩
        · omega
        · rw [hf]
          simp only [Finset.mem_union, Finset.mem_Ico]
          left
          refine ⟨hn2, ?_⟩
          have : P.gfq (ownerAt P.gfq P.num_procs g + 1) ≤
              P.gfq (ownerAt (Bnew P) P.num_procs g) :=
            hmono _ _ (by omega) (by omega)
          omega
      · have hgt : ownerAt (Bnew P) P.num_procs g <
            ownerAt P.gfq P.num_procs g := by omega
        refine ⟨ownerAt (Bnew P) P.num_procs g + 1, ?_, ?_⟩
        · omega
        · rw [hf]
          simp only [Finset.mem_union, Finset.mem_Ico]
          right
          have hii : ownerAt (Bnew P) P.num_procs g + 1 - 1 =
              ownerAt (Bnew P) P.num_procs g := by omega
          rw [hii]
          have : P.gfq (ownerAt (Bnew P) P.num_procs g + 1) ≤
              P.gfq (ownerAt P.gfq P.num_procs g) :=
            hmono _ _ (by omega) (by omega)
          omega
    · rintro ⟨i, hi, hgf⟩
      obtain ⟨hg0, hgN, hcase⟩ := hmem i hi.1 hi.2 g hgf
      refine ⟨⟨hg0, hgN⟩, ?_⟩
      rcases hcase with ⟨hn, ho⟩ | ⟨hn, ho⟩ <;> omega
  rw [show p4est_partition_given_return P 0 = total_shipped P from rfl]
  rw [hM, Finset.card_biUnion hdisj]
  unfold total_shipped
  push_cast
  refine Finset.sum_congr rfl ?_
  intro i hi
  rw [Finset.mem_Ico] at hi
  -- boundary arithmetic
  have hii : i - 1 + 1 = i := by omega
  have hol : old_last P (i - 1) = P.gfq i - 1 := by
    unfold old_last
    rw [hii]
  have hnl : new_last P (i - 1) = Bnew P i - 1 := by
    rw [new_last_eq_Bnew, hii]
  have hcounts_i : P.counts i = Bnew P (i + 1) - Bnew P i := by
    show P.counts i = Bnew P i + P.counts i - Bnew P i
    omega
  have hcounts_im : P.counts (i - 1) = Bnew P i - Bnew P (i - 1) := by
    have : Bnew P (i - 1 + 1) = Bnew P (i - 1) + P.counts (i - 1) := rfl
    rw [hii] at this
    omega
  have hcnt_i : 0 ≤ P.counts i := hcnt i (by omega)
  have hcnt_im : 0 ≤ P.counts (i - 1) := hcnt (i - 1) (by omega)
  rw [hf]
  have hdisj2 : Disjoint
      (Finset.Ico (Bnew P i) (min (P.gfq i) (Bnew P (i + 1))))
      (Finset.Ico (max (P.gfq i) (Bnew P (i - 1))) (Bnew P i)) := by
    rw [Finset.disjoint_left]
    intro g hg1 hg2
    rw [Finset.mem_Ico] at hg1 hg2
    omega
  rw [Finset.card_union_of_disjoint hdisj2, Int.card_Ico, Int.card_Ico]
  unfold shipped_contrib
  rw [hol, hnl, hcounts_i, hcounts_im]
  split_ifs with hd <;> omega

/-- Witness for C4 at a concrete input: two processes with one quadrant each,
requesting one quadrant each again. -/
theorem claim_C4_partition_shipped_witness :
    (∀ r r' : Nat,
      p4est_partition_given_return ⟨2, fun _ => [], fun i => (i : Int), fun _ => 1⟩ r
        = p4est_partition_given_return ⟨2, fun _ => [], fun i => (i : Int), fun _ => 1⟩ r') ∧
    p4est_partition_given_return ⟨2, fun _ => [], fun i => (i : Int), fun _ => 1⟩ 0 =
      (((Finset.Ico (0:ℤ)
          ((⟨2, fun _ => [], fun i => (i : Int), fun _ => 1⟩ : PartitionIn).gfq 2)).filter
        fun g =>
          ownerAt (⟨2, fun _ => [], fun i => (i : Int), fun _ => 1⟩ : PartitionIn).gfq 2 g ≠
          ownerAt (Bnew ⟨2, fun _ => [], fun i => (i : Int), fun _ => 1⟩) 2 g).card : ℤ) :=
  claim_C4_partition_shipped ⟨2, fun _ => [], fun i => (i : Int), fun _ => 1⟩
    (by norm_num) rfl (fun i j hij hj => by show (i:ℤ) ≤ (j:ℤ); exact_mod_cast hij)
    (fun i _ => by norm_num) (by decide)

/-! ### The checksum invariance of `p4est_partition_given` (C2) -/

/-- The `(uint32)` cast used when filling the checkarray. -/
def word32 (v : Int) : Nat := (v % 2 ^ 32).toNat

/-- Big-endian byte serialization of a 32-bit word (`htonl` in memory). -/
def bytesOfWord (w : Nat) : List Nat :=
  [w / 2 ^ 24 % 256, w / 2 ^ 16 % 256, w / 2 ^ 8 % 256, w % 256]

/-- The checkarray words of `p4est_quadrant_checksum` from
`p4est_algorithms.c`: `htonl(x), htonl(y), htonl(level)` per quadrant. -/
def p4est_quadrant_checksum_words (quadrants : List PQuad) : List Nat :=
  quadrants.flatMap fun q => [word32 q.x, word32 q.y, word32 (q.level : Int)]

/-- One bit step of the zlib CRC-32 (reflected polynomial 0xEDB88320). -/
def crc32_step (c : Nat) : Nat :=
  if c % 2 = 1 then (c / 2) ^^^ 0xEDB88320 else c / 2

def crc32_bits : Nat → Nat → Nat
  | 0, c => c
  | n + 1, c => crc32_bits n (crc32_step c)

def crc32_byte (c b : Nat) : Nat := crc32_bits 8 (c ^^^ b % 256)

/-- Modelled from the library contract of `sc_array_checksum`: zlib CRC-32 of
the byte stream. -/
def crc32 (bytes : List Nat) : Nat :=
  (bytes.foldl crc32_byte 0xFFFFFFFF) ^^^ 0xFFFFFFFF

/-- `p4est_quadrant_checksum` from `p4est_algorithms.c` over a leaf list. -/
def p4est_quadrant_checksum (quadrants : List PQuad) : Nat :=
  crc32 ((p4est_quadrant_checksum_words quadrants).flatMap bytesOfWord)

/-- Modelled from the spec (§6): the forest checksum is the CRC over the
big-endian concatenation of `(x, y, level)` of every local leaf in tree-major
order, combined across processes. -/
def p4est_forest_checksum (locals : Nat → List PQuad) (Pn : Nat) : Nat :=
  p4est_quadrant_checksum ((List.range Pn).map locals).flatten

/-- The half-open slice `[a, b)` of the global leaf sequence. -/
def sliceIO (G : List PQuad) (a b : Int) : List PQuad :=
  (G.drop a.toNat).take (b - a).toNat

theorem sliceIO_nil (G : List PQuad) {a b : Int} (h : b ≤ a) :
    sliceIO G a b = [] := by
  unfold sliceIO
  rw [show (b - a).toNat = 0 from by omega]
  rfl

theorem sliceIO_full (G : List PQuad) : sliceIO G 0 (G.length : Int) = G := by
  unfold sliceIO
  simp

theorem sliceIO_append (G : List PQuad) {a b c : Int} (ha : 0 ≤ a)
    (hab : a ≤ b) (hbc : b ≤ c) :
    sliceIO G a b ++ sliceIO G b c = sliceIO G a c := by
  unfold sliceIO
  have h1 : b.toNat = a.toNat + (b - a).toNat := by omega
  have h2 : (c - a).toNat = (b - a).toNat + (c - b).toNat := by omega
  rw [h2, List.take_add]
  congr 1
  rw [h1, ← List.drop_drop]

theorem oldBegin_eq (P : PartitionIn) (hgfq0 : P.gfq 0 = 0) (p : Nat) :
    oldBegin P p = P.gfq p := by
  rcases p with - | s
  · unfold oldBegin
    rw [if_pos rfl, hgfq0]
  · unfold oldBegin old_last
    rw [if_neg (by omega), show s + 1 - 1 = s from rfl]
    omega

theorem newBegin_eq (P : PartitionIn) (r : Nat) : newBegin P r = Bnew P r := by
  rcases r with - | s
  · rfl
  · unfold newBegin
    rw [if_neg (by omega), show s + 1 - 1 = s from rfl, new_last_eq_Bnew]
    omega

/-- The chunk sent from `p` to `r` is the clamped slice of the global
sequence. -/
theorem chunkFor_eq_slice (P : PartitionIn) (G : List PQuad) (p r : Nat)
    (hgfq0 : P.gfq 0 = 0)
    (hloc : P.locals p = sliceIO G (P.gfq p) (P.gfq (p + 1)))
    (hBo : 0 ≤ P.gfq p) (hBo2 : P.gfq p ≤ P.gfq (p + 1))
    (hBn : 0 ≤ Bnew P r) (hBn2 : Bnew P r ≤ Bnew P (r + 1)) :
    chunkFor P p r = sliceIO G (max (P.gfq p) (Bnew P r))
      (min (P.gfq (p + 1)) (Bnew P (r + 1))) := by
  unfold chunkFor
  rw [oldBegin_eq P hgfq0, newBegin_eq P]
  have hnl : new_last P r = Bnew P (r + 1) - 1 := new_last_eq_Bnew P r
  have hol : old_last P p = P.gfq (p + 1) - 1 := rfl
  split_ifs with hc
  · rw [hloc]
    unfold sliceIO
    rw [List.drop_take, List.drop_drop, List.take_take]
    have e1 : (P.gfq p).toNat + (max (Bnew P r) (P.gfq p) - P.gfq p).toNat
        = (max (P.gfq p) (Bnew P r)).toNat := by
      simp only [max_def] at *
      split_ifs at * <;> omega
    rw [e1]
    congr 1
    rw [hnl, hol] at hc
    simp only [min_def, max_def] at *
    split_ifs at * <;> omega
  · rw [hnl, hol] at hc
    have hle : min (P.gfq (p + 1)) (Bnew P (r + 1)) ≤
        max (P.gfq p) (Bnew P r) := by
      simp only [min_def, max_def] at *
      split_ifs at * <;> omega
    rw [sliceIO_nil G hle]

/-- Gluing clamped slices over a monotone partition of boundaries. -/
theorem glue_aux (G : List PQuad) (B : Nat → Int) (Pn : Nat) (α β : Int)
    (hmono : ∀ i j, i ≤ j → j ≤ Pn → B i ≤ B j) (h0 : B 0 ≤ α)
    (hα : 0 ≤ α) (hαβ : α ≤ β) :
    ∀ k, k ≤ Pn →
      (((List.range k).map fun p =>
        sliceIO G (max (B p) α) (min (B (p + 1)) β)).flatten)
        = sliceIO G α (min (max (B k) α) β) := by
  intro k
  induction k with
  | zero =>
    intro _
    rw [show min (max (B 0) α) β = α from by omega]
    rw [sliceIO_nil G (le_refl α)]
    rfl
  | succ k ih =>
    intro hk
    rw [List.range_succ, List.map_append, List.flatten_append,
      ih (by omega)]
    simp only [List.map_cons, List.map_nil, List.flatten_cons,
      List.flatten_nil, List.append_nil]
    have hBk : B k ≤ B (k + 1) := hmono k (k + 1) (by omega) hk
    rcases le_or_lt (max (B k) α) (min (B (k + 1)) β) with hcase | hcase
    · have e1 : min (max (B k) α) β = max (B k) α := by
        have : max (B k) α ≤ β := le_trans hcase (min_le_right _ _)
        exact min_eq_left this
      have e2 : min (max (B (k + 1)) α) β = min (B (k + 1)) β := by
        have : α ≤ B (k + 1) :=
          le_trans (le_max_right _ _) (le_trans hcase (min_le_left _ _))
        rw [max_eq_left this]
      rw [e1, e2]
      exact sliceIO_append G hα (le_max_right _ _) hcase
    · rw [sliceIO_nil G (le_of_lt hcase)]
      have e3 : min (max (B (k + 1)) α) β = min (max (B k) α) β := by
        simp only [min_def, max_def] at hcase ⊢
        split_ifs at hcase ⊢ <;> omega
      rw [e3, List.append_nil]

theorem glue_partition (G : List PQuad) (B : Nat → Int) (Pn : Nat) (α β : Int)
    (hmono : ∀ i j, i ≤ j → j ≤ Pn → B i ≤ B j) (h0 : B 0 ≤ α)
    (hα : 0 ≤ α) (hαβ : α ≤ β) (hβ : β ≤ B Pn) :
    (((List.range Pn).map fun p =>
      sliceIO G (max (B p) α) (min (B (p + 1)) β)).flatten)
      = sliceIO G α β := by
  rw [glue_aux G B Pn α β hmono h0 hα hαβ Pn (le_refl _)]
  congr 1
  omega

/-- C2: for every valid forest, whose local leaf arrays are the consecutive
slices of the tree-major global leaf sequence, and every nonnegative count
array summing to the global quadrant count, the forest checksum after
`p4est_partition_given` equals the checksum before the call. -/
theorem claim_C2_partition_checksum (P : PartitionIn) (G : List PQuad)
    (hP : 1 ≤ P.num_procs)
    (hgfq0 : P.gfq 0 = 0)
    (hmono : ∀ i j, i ≤ j → j ≤ P.num_procs → P.gfq i ≤ P.gfq j)
    (hlen : P.gfq P.num_procs = (G.length : Int))
    (hloc : ∀ p, p < P.num_procs →
      P.locals p = sliceIO G (P.gfq p) (P.gfq (p + 1)))
    (hcnt : ∀ i, i < P.num_procs → 0 ≤ P.counts i)
    (hsum : Bnew P P.num_procs = (G.length : Int)) :
    ((List.range P.num_procs).map fun r => newLocal P r).flatten
      = ((List.range P.num_procs).map P.locals).flatten ∧
    p4est_forest_checksum (fun r => newLocal P r) P.num_procs
      = p4est_forest_checksum P.locals P.num_procs := by
  have hBmono : ∀ i j, i ≤ j → j ≤ P.num_procs → Bnew P i ≤ Bnew P j :=
    Bnew_mono P hcnt
  have hlenpos : (0:ℤ) ≤ (G.length : Int) := by positivity
  have hold : ((List.range P.num_procs).map P.locals).flatten = G := by
    have hcongr : (List.range P.num_procs).map P.locals =
        (List.range P.num_procs).map fun p =>
          sliceIO G (max (P.gfq p) 0) (min (P.gfq (p + 1)) (G.length : Int)) := by
      apply List.map_congr_left
      intro p hp
      rw [List.mem_range] at hp
      rw [hloc p hp]
      have h1 : 0 ≤ P.gfq p := by
        rw [← hgfq0]
        exact hmono 0 p (by omega) (by omega)
      have h2 : P.gfq (p + 1) ≤ (G.length : Int) := by
        rw [← hlen]
        exact hmono (p + 1) _ (by omega) (le_refl _)
      rw [max_eq_left h1, min_eq_left h2]
    rw [hcongr, glue_partition G P.gfq P.num_procs 0 (G.length : Int) hmono
      (le_of_eq hgfq0) (le_refl 0) hlenpos (le_of_eq hlen.symm)]
    exact sliceIO_full G
  have hnewr : ∀ r, r < P.num_procs →
      newLocal P r = sliceIO G (Bnew P r) (Bnew P (r + 1)) := by
    intro r hr
    unfold newLocal
    have hBn0 : (0:ℤ) ≤ Bnew P r := by
      rw [show (0:ℤ) = Bnew P 0 from rfl]
      exact hBmono 0 r (by omega) (by omega)
    have hBn2 : Bnew P r ≤ Bnew P (r + 1) := hBmono r (r + 1) (by omega) hr
    have hBnP : Bnew P (r + 1) ≤ P.gfq P.num_procs := by
      rw [hlen, ← hsum]
      exact hBmono (r + 1) _ hr (le_refl _)
    have hcongr : (List.range P.num_procs).map (fun p => chunkFor P p r) =
        (List.range P.num_procs).map fun p =>
          sliceIO G (max (P.gfq p) (Bnew P r))
            (min (P.gfq (p + 1)) (Bnew P (r + 1))) := by
      apply List.map_congr_left
      intro p hp
      rw [List.mem_range] at hp
      exact chunkFor_eq_slice P G p r hgfq0 (hloc p hp)
        (by rw [← hgfq0]; exact hmono 0 p (by omega) (by omega))
        (hmono p (p + 1) (by omega) (by omega)) hBn0 hBn2
    rw [hcongr]
    exact glue_partition G P.gfq P.num_procs (Bnew P r) (Bnew P (r + 1)) hmono
      (hgfq0 ▸ hBn0) hBn0 hBn2 hBnP
  have hnew : ((List.range P.num_procs).map fun r => newLocal P r).flatten
      = G := by
    have hcongr : (List.range P.num_procs).map (fun r => newLocal P r) =
        (List.range P.num_procs).map fun r =>
          sliceIO G (max (Bnew P r) 0) (min (Bnew P (r + 1)) (G.length : Int)) := by
      apply List.map_congr_left
      intro r hr
      rw [List.mem_range] at hr
      rw [hnewr r hr]
      have h1 : (0:ℤ) ≤ Bnew P r := by
        rw [show (0:ℤ) = Bnew P 0 from rfl]
        exact hBmono 0 r (by omega) (by omega)
      have h2 : Bnew P (r + 1) ≤ (G.length : Int) := by
        rw [← hsum]
        exact hBmono (r + 1) _ hr (le_refl _)
      rw [max_eq_left h1, min_eq_left h2]
    rw [hcongr, glue_partition G (Bnew P) P.num_procs 0 (G.length : Int) hBmono
      (le_refl 0) (le_refl 0) hlenpos (le_of_eq hsum.symm)]
    exact sliceIO_full G
  constructor
  · rw [hnew, hold]
  · unfold p4est_forest_checksum
    rw [hnew, hold]

theorem claim_C2_partition_checksum_witness :
    ((List.range 2).map fun r =>
        newLocal ⟨2, fun p => if p = 0 then [⟨0, 0, 1, 0⟩] else [⟨2 ^ 29, 0, 1, 0⟩],
          fun i => (i : Int), fun i => if i = 0 then 2 else 0⟩ r).flatten
      = ((List.range 2).map
          (fun p => if p = 0 then [(⟨0, 0, 1, 0⟩ : PQuad)]
            else [⟨2 ^ 29, 0, 1, 0⟩])).flatten ∧
    p4est_forest_checksum
        (fun r => newLocal ⟨2,
          fun p => if p = 0 then [⟨0, 0, 1, 0⟩] else [⟨2 ^ 29, 0, 1, 0⟩],
          fun i => (i : Int), fun i => if i = 0 then 2 else 0⟩ r) 2
      = p4est_forest_checksum
          (fun p => if p = 0 then [⟨0, 0, 1, 0⟩] else [⟨2 ^ 29, 0, 1, 0⟩]) 2 :=
  claim_C2_partition_checksum
    ⟨2, fun p => if p = 0 then [⟨0, 0, 1, 0⟩] else [⟨2 ^ 29, 0, 1, 0⟩],
      fun i => (i : Int), fun i => if i = 0 then 2 else 0⟩
    [⟨0, 0, 1, 0⟩, ⟨2 ^ 29, 0, 1, 0⟩]
    (by norm_num) rfl
    (fun i j hij _ => by show (i : ℤ) ≤ (j : ℤ); exact_mod_cast hij)
    (by decide)
    (fun p hp => by interval_cases p <;> decide)
    (fun i _ => by dsimp only; split_ifs <;> norm_num)
    (by decide)

/-! ### `p4est_complete_region` (C3) -/

/-- Modelled from the spec (§4.1): `p4est_quadrant_children` computes the four
children of `q` in Morton (z) order. -/
def p4est_quadrant_children (q : Quadrant) : List Quadrant :=
  [⟨q.x, q.y, q.level + 1⟩,
   ⟨q.x + lenAt (q.level + 1), q.y, q.level + 1⟩,
   ⟨q.x, q.y + lenAt (q.level + 1), q.level + 1⟩,
   ⟨q.x + lenAt (q.level + 1), q.y + lenAt (q.level + 1), q.level + 1⟩]

/-- Modelled from the spec (§4.1): the level-`l` ancestor of `q`, obtained by
truncating the anchor to the level-`l` coordinate lattice. -/
def ancestorAt (q : Quadrant) (l : Nat) : Quadrant :=
  ⟨q.x - q.x % lenAt l, q.y - q.y % lenAt l, l⟩

/-- Modelled from the spec (§4.1): downward search for the deepest level at
which `a` and `b` share an ancestor. -/
def ncaGo (a b : Quadrant) : Nat → Nat
  | 0 => 0
  | l + 1 => if ancestorAt a (l + 1) = ancestorAt b (l + 1) then l + 1
             else ncaGo a b l

/-- Modelled from the spec (§4.1): `p4est_nearest_common_ancestor`. -/
def p4est_nearest_common_ancestor (a b : Quadrant) : Quadrant :=
  ancestorAt a (ncaGo a b (min a.level b.level))

/-- The work loop of `p4est_complete_region` (`p4est_algorithms.c` lines
1396-1444): pop `w` from the work list; if `a < w < b` and `w` is no ancestor
of `b`, push `w` onto the output; otherwise, if `w` is an ancestor of `a` or
of `b`, prepend `w`'s children to the work list; otherwise discard `w`.  The
fuel only needs to dominate the number of loop iterations. -/
def completeRegionGo (a b : Quadrant) : Nat → List Quadrant → List Quadrant
  | _, [] => []
  | 0, _ :: _ => []
  | f + 1, w :: W =>
    if qcompare a w < 0 ∧ qcompare w b < 0 ∧ is_ancestor w b = false then
      w :: completeRegionGo a b f W
    else if is_ancestor w a || is_ancestor w b then
      completeRegionGo a b f (p4est_quadrant_children w ++ W)
    else
      completeRegionGo a b f W

/-- A strict bound on the number of iterations the work loop performs on a
given work list. -/
def wmeasure (W : List Quadrant) : Nat :=
  (W.map fun w => 5 ^ (31 - w.level)).sum

/-- `p4est_complete_region` (`p4est_algorithms.c` lines 1297-1467) as the
sequence of quadrants pushed into the output tree: optionally `a`, then (when
`a < b`) the work loop seeded with the children of the nearest common ancestor
of `a` and `b`, then optionally `b`. -/
def p4est_complete_region (a : Quadrant) (include_a : Bool) (b : Quadrant)
    (include_b : Bool) : List Quadrant :=
  (if include_a then [a] else []) ++
    (if qcompare a b < 0 then
      completeRegionGo a b (5 ^ 31)
        (p4est_quadrant_children (p4est_nearest_common_ancestor a b)) ++
      (if include_b then [b] else [])
    else [])

/-- Every output push runs `p4est_quadrant_init_data` on the pushed quadrant,
which invokes a non-NULL `init_fn` exactly for quadrants inside the root: the
number of initializer calls of `p4est_complete_region`. -/
def complete_region_init_calls (a : Quadrant) (include_a : Bool) (b : Quadrant)
    (include_b : Bool) : Nat :=
  ((p4est_complete_region a include_a b include_b).filter insideRoot).length

/-- `L` tiles the Morton interval `[s, t)`: consecutive quadrant intervals
abut and their concatenation is exactly `[s, t)`. -/
def TilingB : List Quadrant → Nat → Nat → Prop
  | [], s, t => s = t
  | q :: L, s, t => lo q = s ∧ TilingB L (hi q) t

/-- Clamp a Morton position into the gap `[hi a, lo b]` between `a` and `b`. -/
def clampG (a b : Quadrant) (u : Nat) : Nat := min (max u (hi a)) (lo b)

theorem valid_ext {q : Quadrant} (h : IsValidQ q) : IsExtQ q := by
  obtain ⟨h1, h2, h3, h4, h5, h6, h7⟩ := h
  refine ⟨h1, ?_, ?_, ?_, ?_, h6, h7⟩ <;> unfold rootLen at * <;> omega

theorem valid_insideRoot {q : Quadrant} (h : IsValidQ q) :
    insideRoot q = true := by
  obtain ⟨-, h2, h3, h4, h5, -, -⟩ := h
  unfold insideRoot
  simp only [Bool.and_eq_true, decide_eq_true_eq]
  exact ⟨⟨⟨h2, h3⟩, h4⟩, h5⟩

theorem is_ancestor_level {p q : Quadrant} (h : is_ancestor p q = true) :
    p.level < q.level := by
  unfold is_ancestor at h
  simp only [Bool.and_eq_true, decide_eq_true_eq] at h
  exact h.1.1.1.1

theorem TilingB_append {L1 L2 : List Quadrant} {s m t : Nat}
    (h1 : TilingB L1 s m) (h2 : TilingB L2 m t) : TilingB (L1 ++ L2) s t := by
  induction L1 generalizing s with
  | nil =>
    have : s = m := h1
    subst this
    exact h2
  | cons q L1' ih =>
    obtain ⟨hq, hrest⟩ := h1
    exact ⟨hq, ih hrest⟩

theorem TilingB_le {L : List Quadrant} {s t : Nat} (h : TilingB L s t) :
    s ≤ t := by
  induction L generalizing s with
  | nil => exact le_of_eq h
  | cons q L' ih =>
    obtain ⟨hq, hrest⟩ := h
    have := lo_lt_hi q
    have := ih hrest
    omega

theorem TilingB_bounds {L : List Quadrant} {s t : Nat} (h : TilingB L s t) :
    ∀ q ∈ L, s ≤ lo q ∧ hi q ≤ t := by
  induction L generalizing s with
  | nil => intro q hq; cases hq
  | cons p L' ih =>
    obtain ⟨hp, hrest⟩ := h
    intro q hq
    rcases List.mem_cons.mp hq with rfl | hq'
    · have := TilingB_le hrest
      have := lo_lt_hi q
      omega
    · have h1 := ih hrest q hq'
      have := lo_lt_hi p
      omega

theorem wmeasure_cons (w : Quadrant) (W : List Quadrant) :
    wmeasure (w :: W) = 5 ^ (31 - w.level) + wmeasure W := by
  simp [wmeasure]

theorem wmeasure_append (W1 W2 : List Quadrant) :
    wmeasure (W1 ++ W2) = wmeasure W1 + wmeasure W2 := by
  simp [wmeasure]

theorem wmeasure_children (w : Quadrant) :
    wmeasure (p4est_quadrant_children w) = 4 * 5 ^ (31 - (w.level + 1)) := by
  simp [wmeasure, p4est_quadrant_children]
  ring

theorem children_level {w c : Quadrant} (hc : c ∈ p4est_quadrant_children w) :
    c.level = w.level + 1 := by
  simp only [p4est_quadrant_children, List.mem_cons, List.mem_singleton,
    List.not_mem_nil, or_false] at hc
  rcases hc with rfl | rfl | rfl | rfl <;> rfl

theorem lenAt_succ (l : Nat) (hl : l ≤ 29) :
    lenAt l = 2 * lenAt (l + 1) := by
  unfold lenAt
  have h30 : 30 - l = (30 - (l + 1)) + 1 := by omega
  rw [h30, pow_succ]
  ring

theorem children_valid {w : Quadrant} (hw : IsValidQ w) (hl : w.level ≤ 28) :
    ∀ c ∈ p4est_quadrant_children w, IsValidQ c := by
  obtain ⟨h1, h2, h3, h4, h5, hdx, hdy⟩ := hw
  have e := lenAt_succ w.level (by omega)
  have hp1 : 0 < lenAt (w.level + 1) := lenAt_pos _
  have hlt : lenAt (w.level + 1) < lenAt w.level := by omega
  have hdivd : lenAt (w.level + 1) ∣ lenAt w.level := ⟨2, by omega⟩
  have hroot : lenAt w.level ∣ rootLen := by
    unfold lenAt rootLen
    exact pow_dvd_pow 2 (by omega)
  have hpos : 0 < lenAt w.level := lenAt_pos _
  have hxle : w.x + lenAt w.level ≤ rootLen := by
    obtain ⟨K, hK⟩ := hroot
    obtain ⟨dx, hdx'⟩ := hdx
    have hdxK : dx + 1 ≤ K := by
      by_contra hcc
      push_neg at hcc
      have : lenAt w.level * K ≤ lenAt w.level * dx :=
        mul_le_mul_of_nonneg_left (by omega) (le_of_lt hpos)
      omega
    calc w.x + lenAt w.level = lenAt w.level * (dx + 1) := by rw [hdx']; ring
      _ ≤ lenAt w.level * K :=
        mul_le_mul_of_nonneg_left (by exact_mod_cast hdxK) (le_of_lt hpos)
      _ = rootLen := hK.symm
  have hyle : w.y + lenAt w.level ≤ rootLen := by
    obtain ⟨K, hK⟩ := hroot
    obtain ⟨dy, hdy'⟩ := hdy
    have hdyK : dy + 1 ≤ K := by
      by_contra hcc
      push_neg at hcc
      have : lenAt w.level * K ≤ lenAt w.level * dy :=
        mul_le_mul_of_nonneg_left (by omega) (le_of_lt hpos)
      omega
    calc w.y + lenAt w.level = lenAt w.level * (dy + 1) := by rw [hdy']; ring
      _ ≤ lenAt w.level * K :=
        mul_le_mul_of_nonneg_left (by exact_mod_cast hdyK) (le_of_lt hpos)
      _ = rootLen := hK.symm
  have hdvx : lenAt (w.level + 1) ∣ w.x := dvd_trans hdivd hdx
  have hdvy : lenAt (w.level + 1) ∣ w.y := dvd_trans hdivd hdy
  intro c hc
  simp only [p4est_quadrant_children, List.mem_cons, List.mem_singleton,
    List.not_mem_nil, or_false] at hc
  rcases hc with rfl | rfl | rfl | rfl <;>
    refine ⟨?_, ?_, ?_, ?_, ?_, ?_, ?_⟩ <;> dsimp only <;>
    first
      | omega
      | exact hdvx
      | exact hdvy
      | exact dvd_add hdvx dvd_rfl
      | exact dvd_add hdvy dvd_rfl

theorem area_eq_of_level {p q : Quadrant} (h : p.level = q.level) :
    area p = area q := by
  unfold area
  rw [h]

/-- Between a quadrant and a strictly greater one that it does not contain,
the Morton intervals abut or are separated: `hi p ≤ lo q`. -/
theorem abut_of_lt_not_anc {p q : Quadrant} (hp : IsExtQ p) (hq : IsExtQ q)
    (hlt : qcompare p q < 0) (hanc : is_ancestor p q = false) : hi p ≤ lo q := by
  rw [qcompare_lt_iff] at hlt
  by_contra hcon
  push_neg at hcon
  have e1 : lo p = mq p := rfl
  have e2 : lo q = mq q := rfl
  have e3 : hi p = mq p + area p := rfl
  have e4 : hi q = mq q + area q := rfl
  have hlpq := lo_lt_hi p
  have hlqq := lo_lt_hi q
  rcases hlt with hmq | ⟨hmq, hlev⟩
  · rcases le_or_lt p.level q.level with hle | hgt
    · have hnest := nested_of_overlap hp hq hle hcon (by omega)
      rcases eq_or_lt_of_le hle with heq | hlt2
      · have := area_eq_of_level heq
        omega
      · have : is_ancestor p q = true :=
          (is_ancestor_iff_interval hp hq).mpr ⟨hlt2, hnest.1, hnest.2⟩
        rw [this] at hanc
        cases hanc
    · have hnest := nested_of_overlap hq hp (le_of_lt hgt) (by omega) hcon
      omega
  · have hnest := nested_of_overlap hp hq (le_of_lt hlev) (by omega) (by omega)
    have : is_ancestor p q = true :=
      (is_ancestor_iff_interval hp hq).mpr ⟨hlev, hnest.1, hnest.2⟩
    rw [this] at hanc
    cases hanc

/-- A discarded work item that does not exceed `a` ends inside `a`'s span. -/
theorem drop_hi_le {a w : Quadrant} (ha : IsExtQ a) (hw : IsExtQ w)
    (hge : ¬ qcompare a w < 0) (hwa : is_ancestor w a = false) :
    hi w ≤ hi a := by
  rw [qcompare_lt_iff] at hge
  push_neg at hge
  obtain ⟨hge1, hge2⟩ := hge
  have e1 : lo a = mq a := rfl
  have e2 : lo w = mq w := rfl
  have e3 : hi a = mq a + area a := rfl
  have e4 : hi w = mq w + area w := rfl
  have hlpa := lo_lt_hi a
  have hlpw := lo_lt_hi w
  rcases eq_or_lt_of_le hge1 with heq | hmlt
  · have hlevle : w.level ≤ a.level := hge2 heq.symm
    rcases eq_or_lt_of_le hlevle with heql | hltl
    · have := area_eq_of_level heql
      omega
    · have hnest := nested_of_overlap hw ha (le_of_lt hltl) (by omega) (by omega)
      have : is_ancestor w a = true :=
        (is_ancestor_iff_interval hw ha).mpr ⟨hltl, hnest.1, hnest.2⟩
      rw [this] at hwa
      cases hwa
  · by_contra hcon
    push_neg at hcon
    have hov1 : lo w < hi a := by omega
    rcases le_or_lt w.level a.level with hle | hgt
    · have hnest := nested_of_overlap hw ha hle (by omega) hov1
      rcases eq_or_lt_of_le hle with heql | hltl
      · have := area_eq_of_level heql
        omega
      · have : is_ancestor w a = true :=
          (is_ancestor_iff_interval hw ha).mpr ⟨hltl, hnest.1, hnest.2⟩
        rw [this] at hwa
        cases hwa
    · have hnest := nested_of_overlap ha hw (le_of_lt hgt) hov1 (by omega)
      omega

theorem Xc_add_len {x : Int} (hx : -rootLen ≤ x) (l : Nat) (y : Int) (lv : Nat) :
    Xc ⟨x + lenAt l, y, lv⟩ = Xc ⟨x, y, lv⟩ + 2 ^ (30 - l) := by
  unfold Xc
  dsimp only
  have hc := lenAt_cast l
  generalize (2:Nat) ^ (30 - l) = m at hc ⊢
  rw [hc]
  unfold rootLen at *
  omega

theorem Yc_add_len {y : Int} (hy : -rootLen ≤ y) (l : Nat) (x : Int) (lv : Nat) :
    Yc ⟨x, y + lenAt l, lv⟩ = Yc ⟨x, y, lv⟩ + 2 ^ (30 - l) := by
  unfold Yc
  dsimp only
  have hc := lenAt_cast l
  generalize (2:Nat) ^ (30 - l) = m at hc ⊢
  rw [hc]
  unfold rootLen at *
  omega

/-- The four children of `w` tile `w`'s own Morton interval, in order. -/
theorem children_tilingB {w : Quadrant} (hw : IsExtQ w) (hl : w.level ≤ 29) :
    TilingB (p4est_quadrant_children w) (lo w) (hi w) := by
  obtain ⟨hwl, hwx1, hwx2, hwy1, hwy2, hwdx, hwdy⟩ := hw
  have hk : 30 - w.level = (29 - w.level) + 1 := by omega
  have hk' : 30 - (w.level + 1) = 29 - w.level := by omega
  generalize hkk : 29 - w.level = k at hk hk'
  obtain ⟨A, hA⟩ := ext_Xc_dvd w ⟨hwl, hwx1, hwx2, hwy1, hwy2, hwdx, hwdy⟩
  obtain ⟨B, hB⟩ := ext_Yc_dvd w ⟨hwl, hwx1, hwx2, hwy1, hwy2, hwdx, hwdy⟩
  rw [hk] at hA hB
  have hXw : Xc w = 2 ^ k * (2 * A) := by rw [hA, pow_succ]; ring
  have hYw : Yc w = 2 ^ k * (2 * B) := by rw [hB, pow_succ]; ring
  have hXsame : ∀ (y : Int) (lv : Nat), Xc ⟨w.x, y, lv⟩ = Xc w :=
    fun _ _ => rfl
  have hYsame : ∀ (x : Int) (lv : Nat), Yc ⟨x, w.y, lv⟩ = Yc w :=
    fun _ _ => rfl
  have hXshift : ∀ y lv, Xc ⟨w.x + lenAt (w.level + 1), y, lv⟩
      = Xc ⟨w.x, y, lv⟩ + 2 ^ k := by
    intro y lv
    rw [Xc_add_len hwx1 (w.level + 1) y lv, hk']
  have hYshift : ∀ x lv, Yc ⟨x, w.y + lenAt (w.level + 1), lv⟩
      = Yc ⟨x, w.y, lv⟩ + 2 ^ k := by
    intro x lv
    rw [Yc_add_len hwy1 (w.level + 1) x lv, hk']
  have hI0 : interleave (2 * A) (2 * B) = 4 * interleave A B := by
    rw [interleave_eq]
    have e1 : 2 * A % 2 = 0 := by omega
    have e2 : 2 * A / 2 = A := by omega
    have e3 : 2 * B % 2 = 0 := by omega
    have e4 : 2 * B / 2 = B := by omega
    rw [e1, e2, e3, e4]
    ring
  have hI1 : interleave (2 * A + 1) (2 * B) = 4 * interleave A B + 1 := by
    rw [interleave_eq]
    have e1 : (2 * A + 1) % 2 = 1 := by omega
    have e2 : (2 * A + 1) / 2 = A := by omega
    have e3 : 2 * B % 2 = 0 := by omega
    have e4 : 2 * B / 2 = B := by omega
    rw [e1, e2, e3, e4]
    ring
  have hI2 : interleave (2 * A) (2 * B + 1) = 4 * interleave A B + 2 := by
    rw [interleave_eq]
    have e1 : 2 * A % 2 = 0 := by omega
    have e2 : 2 * A / 2 = A := by omega
    have e3 : (2 * B + 1) % 2 = 1 := by omega
    have e4 : (2 * B + 1) / 2 = B := by omega
    rw [e1, e2, e3, e4]
    ring
  have hI3 : interleave (2 * A + 1) (2 * B + 1) = 4 * interleave A B + 3 := by
    rw [interleave_eq]
    have e1 : (2 * A + 1) % 2 = 1 := by omega
    have e2 : (2 * A + 1) / 2 = A := by omega
    have e3 : (2 * B + 1) % 2 = 1 := by omega
    have e4 : (2 * B + 1) / 2 = B := by omega
    rw [e1, e2, e3, e4]
    ring
  have hmqw : mq w = 4 ^ k * (4 * interleave A B) := by
    unfold mq
    rw [hXw, hYw, interleave_scale, hI0]
  have hmq0 : mq ⟨w.x, w.y, w.level + 1⟩ = 4 ^ k * (4 * interleave A B) := hmqw
  have hmq1 : mq ⟨w.x + lenAt (w.level + 1), w.y, w.level + 1⟩
      = 4 ^ k * (4 * interleave A B + 1) := by
    unfold mq
    rw [hXshift, hXsame, hYsame, hXw, hYw]
    rw [show 2 ^ k * (2 * A) + 2 ^ k = 2 ^ k * (2 * A + 1) by ring]
    rw [interleave_scale, hI1]
  have hmq2 : mq ⟨w.x, w.y + lenAt (w.level + 1), w.level + 1⟩
      = 4 ^ k * (4 * interleave A B + 2) := by
    unfold mq
    rw [hYshift, hXsame, hYsame, hXw, hYw]
    rw [show 2 ^ k * (2 * B) + 2 ^ k = 2 ^ k * (2 * B + 1) by ring]
    rw [interleave_scale, hI2]
  have hmq3 : mq ⟨w.x + lenAt (w.level + 1), w.y + lenAt (w.level + 1),
      w.level + 1⟩ = 4 ^ k * (4 * interleave A B + 3) := by
    unfold mq
    rw [hXshift, hYshift, hXsame, hYsame, hXw, hYw]
    rw [show 2 ^ k * (2 * A) + 2 ^ k = 2 ^ k * (2 * A + 1) by ring]
    rw [show 2 ^ k * (2 * B) + 2 ^ k = 2 ^ k * (2 * B + 1) by ring]
    rw [interleave_scale, hI3]
  have hac : ∀ x y, area (⟨x, y, w.level + 1⟩ : Quadrant) = 4 ^ k := by
    intro x y
    unfold area
    dsimp only
    rw [hk']
  have haw : area w = 4 ^ (k + 1) := by
    unfold area
    rw [hk]
  simp only [p4est_quadrant_children, TilingB]
  refine ⟨?_, ?_, ?_, ?_, ?_⟩ <;> simp only [lo, hi] <;>
    first
    | rfl
    | (rw [hmq0, hmq1, hac]; ring)
    | (rw [hmq1, hmq2, hac]; ring)
    | (rw [hmq2, hmq3, hac]; ring)
    | (rw [hmq3, hmqw, hac, haw]; ring)

theorem ancestorAt_self {q : Quadrant} (hq : IsValidQ q) :
    ancestorAt q q.level = q := by
  obtain ⟨h1, h2, h3, h4, h5, hdx, hdy⟩ := hq
  have hx : q.x % lenAt q.level = 0 := Int.emod_eq_zero_of_dvd hdx
  have hy : q.y % lenAt q.level = 0 := Int.emod_eq_zero_of_dvd hdy
  unfold ancestorAt
  rw [hx, hy]
  cases q
  simp

theorem ancestorAt_zero {q : Quadrant} (hq : IsValidQ q) :
    ancestorAt q 0 = ⟨0, 0, 0⟩ := by
  obtain ⟨h1, h2, h3, h4, h5, hdx, hdy⟩ := hq
  have hx : q.x % lenAt 0 = q.x := Int.emod_eq_of_lt h2 (by exact h3)
  have hy : q.y % lenAt 0 = q.y := Int.emod_eq_of_lt h4 (by exact h5)
  unfold ancestorAt
  rw [hx, hy]
  simp

theorem ancestorAt_valid {q : Quadrant} (hq : IsValidQ q) {l : Nat}
    (hl : l ≤ q.level) : IsValidQ (ancestorAt q l) := by
  obtain ⟨h1, h2, h3, h4, h5, hdx, hdy⟩ := hq
  have hpos : 0 < lenAt l := lenAt_pos l
  have hxm1 : 0 ≤ q.x % lenAt l := Int.emod_nonneg q.x (ne_of_gt hpos)
  have hym1 : 0 ≤ q.y % lenAt l := Int.emod_nonneg q.y (ne_of_gt hpos)
  have hxm2 : q.x % lenAt l < lenAt l := Int.emod_lt_of_pos q.x hpos
  have hym2 : q.y % lenAt l < lenAt l := Int.emod_lt_of_pos q.y hpos
  have hxle : q.x % lenAt l ≤ q.x := by
    rcases lt_or_le q.x (lenAt l) with h | h
    · rw [Int.emod_eq_of_lt h2 h]
    · omega
  have hyle : q.y % lenAt l ≤ q.y := by
    rcases lt_or_le q.y (lenAt l) with h | h
    · rw [Int.emod_eq_of_lt h4 h]
    · omega
  have hxe : q.x - q.x % lenAt l = lenAt l * (q.x / lenAt l) := by
    have := Int.emod_def q.x (lenAt l)
    omega
  have hye : q.y - q.y % lenAt l = lenAt l * (q.y / lenAt l) := by
    have := Int.emod_def q.y (lenAt l)
    omega
  refine ⟨?_, ?_, ?_, ?_, ?_, ?_, ?_⟩ <;> dsimp only [ancestorAt]
  · omega
  · omega
  · omega
  · omega
  · omega
  · exact ⟨q.x / lenAt l, hxe⟩
  · exact ⟨q.y / lenAt l, hye⟩

theorem ancestorAt_is_anc {q : Quadrant} (hq : IsValidQ q) {l : Nat}
    (hl : l < q.level) : is_ancestor (ancestorAt q l) q = true := by
  obtain ⟨h1, h2, h3, h4, h5, hdx, hdy⟩ := hq
  have hpos : 0 < lenAt l := lenAt_pos l
  have hxm1 : 0 ≤ q.x % lenAt l := Int.emod_nonneg q.x (ne_of_gt hpos)
  have hxm2 : q.x % lenAt l < lenAt l := Int.emod_lt_of_pos q.x hpos
  have hym1 : 0 ≤ q.y % lenAt l := Int.emod_nonneg q.y (ne_of_gt hpos)
  have hym2 : q.y % lenAt l < lenAt l := Int.emod_lt_of_pos q.y hpos
  unfold is_ancestor ancestorAt
  simp only [Bool.and_eq_true, decide_eq_true_eq]
  exact ⟨⟨⟨⟨hl, by omega⟩, by omega⟩, by omega⟩, by omega⟩

/-- The level-`l` truncation of `q` contains `q`'s Morton interval. -/
theorem ancestorAt_interval {q : Quadrant} (hq : IsValidQ q) {l : Nat}
    (hl : l ≤ q.level) :
    lo (ancestorAt q l) ≤ lo q ∧ hi q ≤ hi (ancestorAt q l) := by
  rcases eq_or_lt_of_le hl with heq | hlt
  · subst heq
    rw [ancestorAt_self hq]
    exact ⟨le_refl _, le_refl _⟩
  · have h := ancestorAt_is_anc hq hlt
    have hint := (is_ancestor_iff_interval
      (valid_ext (ancestorAt_valid hq hl)) (valid_ext hq)).mp h
    exact ⟨hint.2.1, hint.2.2⟩

theorem anc_of_ancestorAt_eq {a b : Quadrant} (hvb : IsValidQ b) {l : Nat}
    (hl : l < b.level) (h : ancestorAt b l = a) : is_ancestor a b = true := by
  rw [← h]
  exact ancestorAt_is_anc hvb hl

theorem ncaGo_le (a b : Quadrant) : ∀ m, ncaGo a b m ≤ m := by
  intro m
  induction m with
  | zero => exact le_refl _
  | succ m ih =>
    unfold ncaGo
    split
    · exact le_refl _
    · omega

theorem ncaGo_eq {a b : Quadrant} (hva : IsValidQ a) (hvb : IsValidQ b) :
    ∀ m, ancestorAt a (ncaGo a b m) = ancestorAt b (ncaGo a b m) := by
  intro m
  induction m with
  | zero =>
    show ancestorAt a 0 = ancestorAt b 0
    rw [ancestorAt_zero hva, ancestorAt_zero hvb]
  | succ m ih =>
    unfold ncaGo
    split
    · assumption
    · exact ih

theorem qcompare_self (a : Quadrant) : qcompare a a = 0 := by
  unfold qcompare
  simp

/-- Under the amended hypotheses the nearest common ancestor is a strict
ancestor of both endpoints. -/
theorem ncaGo_lt {a b : Quadrant} (hva : IsValidQ a) (hvb : IsValidQ b)
    (hab : qcompare a b < 0) (hnab : is_ancestor a b = false) :
    ncaGo a b (min a.level b.level) < a.level ∧
    ncaGo a b (min a.level b.level) < b.level := by
  have hle := ncaGo_le a b (min a.level b.level)
  have heqv := ncaGo_eq hva hvb (min a.level b.level)
  have hne : a ≠ b := by
    intro h
    rw [h, qcompare_self] at hab
    omega
  constructor
  · by_contra hcon
    push_neg at hcon
    have hna : ncaGo a b (min a.level b.level) = a.level := by omega
    have hab_lev : a.level ≤ b.level := by omega
    rw [hna, ancestorAt_self hva] at heqv
    rcases eq_or_lt_of_le hab_lev with heql | hltl
    · rw [heql] at heqv
      rw [ancestorAt_self hvb] at heqv
      exact hne heqv
    · have := anc_of_ancestorAt_eq hvb hltl heqv.symm
      rw [this] at hnab
      cases hnab
  · by_contra hcon
    push_neg at hcon
    have hnb : ncaGo a b (min a.level b.level) = b.level := by omega
    have hba_lev : b.level ≤ a.level := by omega
    rw [hnb, ancestorAt_self hvb] at heqv
    rcases eq_or_lt_of_le hba_lev with heql | hltl
    · rw [heql] at heqv
      rw [ancestorAt_self hva] at heqv
      exact hne heqv
    · have := anc_of_ancestorAt_eq hva hltl heqv
      have hlt := anc_qlt (valid_ext hvb) (valid_ext hva) this
      have := qcompare_asymm hab
      omega

theorem completeRegionGo_nil (a b : Quadrant) (f : Nat) :
    completeRegionGo a b f [] = [] := by
  cases f <;> rfl

theorem pow5_pos (n : Nat) : 0 < 5 ^ n := Nat.pos_pow_of_pos _ (by norm_num)

theorem recurse_level {a b w : Quadrant} (ha : a.level ≤ 29) (hb : b.level ≤ 29)
    (h : (is_ancestor w a || is_ancestor w b) = true) : w.level ≤ 28 := by
  rw [Bool.or_eq_true] at h
  rcases h with h | h
  · have := is_ancestor_level h
    omega
  · have := is_ancestor_level h
    omega

theorem pow5_split {l : Nat} (hl : l ≤ 28) :
    5 ^ (31 - l) = 5 * 5 ^ (31 - (l + 1)) := by
  rw [show 31 - l = (31 - (l + 1)) + 1 from by omega, pow_succ]
  ring

theorem completeRegionGo_fuel {a b : Quadrant} (ha : a.level ≤ 29)
    (hb : b.level ≤ 29) :
    ∀ f f' W, wmeasure W ≤ f → wmeasure W ≤ f' →
      completeRegionGo a b f W = completeRegionGo a b f' W := by
  intro f
  induction f with
  | zero =>
    intro f' W h _
    cases W with
    | nil => rw [completeRegionGo_nil, completeRegionGo_nil]
    | cons w W' =>
      rw [wmeasure_cons] at h
      have := pow5_pos (31 - w.level)
      omega
  | succ f ih =>
    intro f' W hf hf'
    cases W with
    | nil => rw [completeRegionGo_nil, completeRegionGo_nil]
    | cons w W' =>
      cases f' with
      | zero =>
        rw [wmeasure_cons] at hf'
        have := pow5_pos (31 - w.level)
        omega
      | succ f' =>
        rw [wmeasure_cons] at hf hf'
        have hpos := pow5_pos (31 - w.level)
        simp only [completeRegionGo]
        split_ifs with h1 h2
        · rw [ih f' W' (by omega) (by omega)]
        · have hl28 := recurse_level ha hb h2
          have hsplit := pow5_split hl28
          have hm : wmeasure (p4est_quadrant_children w ++ W')
              = 4 * 5 ^ (31 - (w.level + 1)) + wmeasure W' := by
            rw [wmeasure_append, wmeasure_children]
          have hpos' := pow5_pos (31 - (w.level + 1))
          rw [ih f' (p4est_quadrant_children w ++ W') (by omega) (by omega)]
        · rw [ih f' W' (by omega) (by omega)]

theorem completeRegionGo_append {a b : Quadrant} (ha : a.level ≤ 29)
    (hb : b.level ≤ 29) :
    ∀ f W1 W2, wmeasure (W1 ++ W2) ≤ f →
      completeRegionGo a b f (W1 ++ W2) =
        completeRegionGo a b f W1 ++ completeRegionGo a b f W2 := by
  intro f
  induction f with
  | zero =>
    intro W1 W2 h
    cases W1 with
    | nil => simp [completeRegionGo_nil]
    | cons w W1' =>
      rw [List.cons_append, wmeasure_cons] at h
      have := pow5_pos (31 - w.level)
      omega
  | succ f ih =>
    intro W1 W2 h
    cases W1 with
    | nil => simp [completeRegionGo_nil]
    | cons w W1' =>
      rw [List.cons_append] at h ⊢
      rw [wmeasure_cons, wmeasure_append] at h
      have hpos := pow5_pos (31 - w.level)
      simp only [completeRegionGo]
      split_ifs with h1 h2
      · rw [List.cons_append]
        congr 1
        rw [ih W1' W2 (by rw [wmeasure_append]; omega)]
        congr 1
        exact completeRegionGo_fuel ha hb f (f + 1) W2 (by omega) (by omega)
      · have hl28 := recurse_level ha hb h2
        have hsplit := pow5_split hl28
        have hpos' := pow5_pos (31 - (w.level + 1))
        rw [← List.append_assoc]
        rw [ih (p4est_quadrant_children w ++ W1') W2
          (by rw [wmeasure_append, wmeasure_append, wmeasure_children]; omega)]
        congr 1
        exact completeRegionGo_fuel ha hb f (f + 1) W2 (by omega) (by omega)
      · rw [ih W1' W2 (by rw [wmeasure_append]; omega)]
        congr 1
        exact completeRegionGo_fuel ha hb f (f + 1) W2 (by omega) (by omega)

theorem is_ancestor_irrefl (q : Quadrant) : is_ancestor q q = false := by
  unfold is_ancestor
  simp

theorem quad_eq_of_mq_level {p q : Quadrant} (hp : IsExtQ p) (hq : IsExtQ q)
    (hm : mq p = mq q) (hl : p.level = q.level) : p = q := by
  obtain ⟨hx, hy⟩ := mq_inj hp hq hm
  cases p
  cases q
  simp_all

/-- A child of a split work item is never a strict descendant of `a` or `b`:
the invariant of the work loop. -/
theorem child_invariant {a b w : Quadrant} (hva : IsValidQ a) (hvb : IsValidQ b)
    (hab : qcompare a b < 0) (hnab : is_ancestor a b = false)
    (hvw : IsValidQ w) (hwa : is_ancestor a w = false)
    (hwb : is_ancestor b w = false)
    (hrec : (is_ancestor w a || is_ancestor w b) = true) :
    ∀ c ∈ p4est_quadrant_children w,
      is_ancestor a c = false ∧ is_ancestor b c = false := by
  have hea := valid_ext hva
  have heb := valid_ext hvb
  have hwe := valid_ext hvw
  have ha29 : a.level ≤ 29 := hva.1
  have hb29 : b.level ≤ 29 := hvb.1
  have hwl : w.level ≤ 29 := hvw.1
  have hl28 := recurse_level ha29 hb29 hrec
  intro c hc
  have hcl := children_level hc
  have hcb := TilingB_bounds (children_tilingB hwe hwl) c hc
  have hce : IsExtQ c := valid_ext (children_valid hvw hl28 c hc)
  have hlhc := lo_lt_hi c
  have hlha := lo_lt_hi a
  have hlhb := lo_lt_hi b
  have hlhw := lo_lt_hi w
  constructor
  · by_contra hcon
    rw [Bool.not_eq_false] at hcon
    obtain ⟨hlev, hl1, hl2⟩ := (is_ancestor_iff_interval hea hce).mp hcon
    have halev : a.level ≤ w.level := by omega
    have hnest := nested_of_overlap hea hwe halev (by omega) (by omega)
    rcases eq_or_lt_of_le halev with heql | hltl
    · have haw : a = w := by
        have := area_eq_of_level heql
        have e1 : lo a = mq a := rfl
        have e2 : lo w = mq w := rfl
        have e3 : hi a = mq a + area a := rfl
        have e4 : hi w = mq w + area w := rfl
        exact quad_eq_of_mq_level hea hwe (by omega) heql
      rw [← haw] at hrec
      rw [is_ancestor_irrefl, hnab] at hrec
      cases hrec
    · have : is_ancestor a w = true :=
        (is_ancestor_iff_interval hea hwe).mpr ⟨hltl, hnest.1, hnest.2⟩
      rw [this] at hwa
      cases hwa
  · by_contra hcon
    rw [Bool.not_eq_false] at hcon
    obtain ⟨hlev, hl1, hl2⟩ := (is_ancestor_iff_interval heb hce).mp hcon
    have hblev : b.level ≤ w.level := by omega
    have hnest := nested_of_overlap heb hwe hblev (by omega) (by omega)
    rcases eq_or_lt_of_le hblev with heql | hltl
    · have hbw : b = w := by
        have := area_eq_of_level heql
        have e1 : lo b = mq b := rfl
        have e2 : lo w = mq w := rfl
        have e3 : hi b = mq b + area b := rfl
        have e4 : hi w = mq w + area w := rfl
        exact quad_eq_of_mq_level heb hwe (by omega) heql
      rw [← hbw] at hrec
      rw [is_ancestor_irrefl] at hrec
      rw [Bool.or_eq_true] at hrec
      rcases hrec with h | h
      · have := anc_qlt heb hea h
        have := qcompare_asymm hab
        omega
      · cases h
    · have : is_ancestor b w = true :=
        (is_ancestor_iff_interval heb hwe).mpr ⟨hltl, hnest.1, hnest.2⟩
      rw [this] at hwb
      cases hwb

/-- Invariant correctness of the work loop: on a work list that itself tiles
`[s, t)` and contains no strict descendants of `a` or `b`, the loop emits a
tiling of the clamp of `[s, t)` to the gap between `a` and `b`, consisting of
valid quadrants. -/
theorem processList {a b : Quadrant} (hva : IsValidQ a) (hvb : IsValidQ b)
    (hab : qcompare a b < 0) (hnab : is_ancestor a b = false) :
    ∀ f W s t,
      (∀ w ∈ W, IsValidQ w ∧ is_ancestor a w = false ∧ is_ancestor b w = false) →
      TilingB W s t → wmeasure W ≤ f →
      TilingB (completeRegionGo a b f W) (clampG a b s) (clampG a b t) ∧
      ∀ q ∈ completeRegionGo a b f W, IsValidQ q := by
  have hea := valid_ext hva
  have heb := valid_ext hvb
  have ha29 : a.level ≤ 29 := hva.1
  have hb29 : b.level ≤ 29 := hvb.1
  have hG : hi a ≤ lo b := abut_of_lt_not_anc hea heb hab hnab
  have hlha := lo_lt_hi a
  have hlhb := lo_lt_hi b
  intro f
  induction f with
  | zero =>
    intro W s t hinv hT hf
    cases W with
    | nil =>
      rw [completeRegionGo_nil]
      have hst : s = t := hT
      subst hst
      exact ⟨rfl, by intro q hq; cases hq⟩
    | cons w W' =>
      rw [wmeasure_cons] at hf
      have := pow5_pos (31 - w.level)
      omega
  | succ f ih =>
    intro W s t hinv hT hf
    cases W with
    | nil =>
      rw [completeRegionGo_nil]
      have hst : s = t := hT
      subst hst
      exact ⟨rfl, by intro q hq; cases hq⟩
    | cons w W' =>
      obtain ⟨hlw, hT'⟩ := hT
      obtain ⟨hvw, hwa, hwb⟩ := hinv w (List.mem_cons_self w W')
      have hinv' : ∀ v ∈ W',
          IsValidQ v ∧ is_ancestor a v = false ∧ is_ancestor b v = false :=
        fun v hv => hinv v (List.mem_cons_of_mem w hv)
      have hwe := valid_ext hvw
      have hwl : w.level ≤ 29 := hvw.1
      rw [wmeasure_cons] at hf
      have hpos := pow5_pos (31 - w.level)
      have hlh := lo_lt_hi w
      simp only [completeRegionGo]
      split_ifs with h1 h2
      · obtain ⟨h1a, h1b, h1anc⟩ := h1
        have hlow : hi a ≤ lo w := abut_of_lt_not_anc hea hwe h1a hwa
        have hhiw : hi w ≤ lo b := abut_of_lt_not_anc hwe heb h1b h1anc
        obtain ⟨ihT, ihV⟩ := ih W' (hi w) t hinv' hT' (by omega)
        have hcl : clampG a b (hi w) = hi w := by
          simp only [clampG, min_def, max_def]
          split_ifs <;> omega
        have hcs : clampG a b (lo w) = lo w := by
          simp only [clampG, min_def, max_def]
          split_ifs <;> omega
        constructor
        · rw [← hlw]
          refine ⟨hcs.symm, ?_⟩
          rw [hcl] at ihT
          exact ihT
        · intro q hq
          rcases List.mem_cons.mp hq with rfl | hq'
          · exact hvw
          · exact ihV q hq'
      · have hl28 := recurse_level ha29 hb29 h2
        have hcv := children_valid hvw hl28
        have hci := child_invariant hva hvb hab hnab hvw hwa hwb h2
        have hinv'' : ∀ v ∈ p4est_quadrant_children w ++ W',
            IsValidQ v ∧ is_ancestor a v = false ∧ is_ancestor b v = false := by
          intro v hv
          rcases List.mem_append.mp hv with h | h
          · exact ⟨hcv v h, (hci v h).1, (hci v h).2⟩
          · exact hinv' v h
        have hTc : TilingB (p4est_quadrant_children w ++ W') (lo w) t :=
          TilingB_append (children_tilingB hwe hwl) hT'
        have hmc : wmeasure (p4est_quadrant_children w ++ W') ≤ f := by
          rw [wmeasure_append, wmeasure_children]
          have := pow5_split hl28
          have := pow5_pos (31 - (w.level + 1))
          omega
        obtain ⟨ihT, ihV⟩ := ih _ (lo w) t hinv'' hTc hmc
        constructor
        · rw [← hlw]
          exact ihT
        · exact ihV
      · have hor : (is_ancestor w a || is_ancestor w b) = false := by
          simpa using h2
        rw [Bool.or_eq_false_iff] at hor
        obtain ⟨hnwa, hnwb⟩ := hor
        have hkey : clampG a b (lo w) = clampG a b (hi w) := by
          by_cases hcw : qcompare a w < 0
          · have hwbge : ¬ qcompare w b < 0 := fun hc => h1 ⟨hcw, hc, hnwb⟩
            have hlb : lo b ≤ lo w := by
              rw [qcompare_lt_iff] at hwbge
              push_neg at hwbge
              have e1 : lo b = mq b := rfl
              have e2 : lo w = mq w := rfl
              have := hwbge.1
              omega
            simp only [clampG, min_def, max_def]
            split_ifs <;> omega
          · have hhi : hi w ≤ hi a := drop_hi_le hea hwe hcw hnwa
            simp only [clampG, min_def, max_def]
            split_ifs <;> omega
        obtain ⟨ihT, ihV⟩ := ih W' (hi w) t hinv' hT' (by omega)
        refine ⟨?_, ihV⟩
        rw [← hlw, hkey]
        exact ihT

/-- The loop output of `p4est_complete_region` tiles exactly the gap between
`a` and `b`, with valid quadrants. -/
theorem complete_region_middle {a b : Quadrant} (hva : IsValidQ a)
    (hvb : IsValidQ b) (hab : qcompare a b < 0)
    (hnab : is_ancestor a b = false) :
    TilingB (completeRegionGo a b (5 ^ 31)
        (p4est_quadrant_children (p4est_nearest_common_ancestor a b)))
      (hi a) (lo b) ∧
    ∀ q ∈ completeRegionGo a b (5 ^ 31)
        (p4est_quadrant_children (p4est_nearest_common_ancestor a b)),
      IsValidQ q := by
  have hea := valid_ext hva
  have heb := valid_ext hvb
  have ha29 : a.level ≤ 29 := hva.1
  have hb29 : b.level ≤ 29 := hvb.1
  have hG : hi a ≤ lo b := abut_of_lt_not_anc hea heb hab hnab
  have hlha := lo_lt_hi a
  have hlhb := lo_lt_hi b
  obtain ⟨hlta, hltb⟩ := ncaGo_lt hva hvb hab hnab
  have hlevN : (p4est_nearest_common_ancestor a b).level
      = ncaGo a b (min a.level b.level) := rfl
  have hNv : IsValidQ (p4est_nearest_common_ancestor a b) :=
    ancestorAt_valid hva (le_of_lt hlta)
  have hNe := valid_ext hNv
  have hN29 : (p4est_nearest_common_ancestor a b).level ≤ 29 := hNv.1
  have hN28 : (p4est_nearest_common_ancestor a b).level ≤ 28 := by
    rw [hlevN]
    omega
  have hintA : lo (p4est_nearest_common_ancestor a b) ≤ lo a ∧
      hi a ≤ hi (p4est_nearest_common_ancestor a b) :=
    ancestorAt_interval hva (le_of_lt hlta)
  have heqv := ncaGo_eq hva hvb (min a.level b.level)
  have hintB : lo (p4est_nearest_common_ancestor a b) ≤ lo b ∧
      hi b ≤ hi (p4est_nearest_common_ancestor a b) := by
    have h := ancestorAt_interval hvb (le_of_lt hltb)
    unfold p4est_nearest_common_ancestor
    rw [heqv]
    exact h
  have hinv : ∀ c ∈ p4est_quadrant_children (p4est_nearest_common_ancestor a b),
      IsValidQ c ∧ is_ancestor a c = false ∧ is_ancestor b c = false := by
    intro c hc
    have hclev := children_level hc
    refine ⟨children_valid hNv hN28 c hc, ?_, ?_⟩
    · by_contra h
      rw [Bool.not_eq_false] at h
      have := is_ancestor_level h
      omega
    · by_contra h
      rw [Bool.not_eq_false] at h
      have := is_ancestor_level h
      omega
  have hm : wmeasure (p4est_quadrant_children
      (p4est_nearest_common_ancestor a b)) ≤ 5 ^ 31 := by
    rw [wmeasure_children]
    have h1 : (5:Nat) ^ (31 - ((p4est_nearest_common_ancestor a b).level + 1))
        ≤ 5 ^ 30 := Nat.pow_le_pow_right (by norm_num) (by omega)
    have h2 : (5:Nat) ^ 31 = 5 * 5 ^ 30 := by rw [pow_succ]; ring
    omega
  have hTc := children_tilingB hNe hN29
  obtain ⟨hT, hV⟩ := processList hva hvb hab hnab (5 ^ 31)
    (p4est_quadrant_children (p4est_nearest_common_ancestor a b))
    (lo (p4est_nearest_common_ancestor a b))
    (hi (p4est_nearest_common_ancestor a b)) hinv hTc hm
  have hlhN := lo_lt_hi (p4est_nearest_common_ancestor a b)
  have hc1 : clampG a b (lo (p4est_nearest_common_ancestor a b)) = hi a := by
    simp only [clampG, min_def, max_def]
    split_ifs <;> omega
  have hc2 : clampG a b (hi (p4est_nearest_common_ancestor a b)) = lo b := by
    simp only [clampG, min_def, max_def]
    split_ifs <;> omega
  rw [hc1, hc2] at hT
  exact ⟨hT, hV⟩

/-- A tiling by valid quadrants is sorted, linear and complete. -/
theorem tiling_chain_props : ∀ {L : List Quadrant} {s t : Nat},
    TilingB L s t → (∀ q ∈ L, IsValidQ q) →
    p4est_tree_is_sorted L = true ∧ p4est_tree_is_linear L = true ∧
    p4est_tree_is_complete L = true := by
  intro L
  induction L with
  | nil => intro s t hT hV; exact ⟨rfl, rfl, rfl⟩
  | cons q L' ih =>
    intro s t hT hV
    obtain ⟨hlq, hT'⟩ := hT
    have hV' : ∀ v ∈ L', IsValidQ v := fun v hv => hV v (List.mem_cons_of_mem q hv)
    obtain ⟨hs', hl', hc'⟩ := ih hT' hV'
    cases L' with
    | nil => exact ⟨rfl, rfl, rfl⟩
    | cons q2 L'' =>
      obtain ⟨hlq2, -⟩ := hT'
      have hqe := valid_ext (hV q (List.mem_cons_self q (q2 :: L'')))
      have hq2e := valid_ext (hV q2 (List.mem_cons_of_mem q
        (List.mem_cons_self q2 L'')))
      have hlhq := lo_lt_hi q
      have hlhq2 := lo_lt_hi q2
      have hcmp : qcompare q q2 < 0 := by
        rw [qcompare_lt_iff]
        left
        have e1 : lo q = mq q := rfl
        have e2 : lo q2 = mq q2 := rfl
        have e3 : hi q = mq q + area q := rfl
        omega
      have hnanc : is_ancestor q q2 = false := by
        by_contra h
        rw [Bool.not_eq_false] at h
        obtain ⟨-, h1, h2⟩ := (is_ancestor_iff_interval hqe hq2e).mp h
        omega
      refine ⟨?_, ?_, ?_⟩
      · show (decide (qcompare q q2 < 0) && p4est_tree_is_sorted (q2 :: L''))
            = true
        rw [hs', Bool.and_true, decide_eq_true_eq]
        exact hcmp
      · show (decide (qcompare q q2 < 0) && !(is_ancestor q q2) &&
            p4est_tree_is_linear (q2 :: L'')) = true
        rw [hl', Bool.and_true, hnanc]
        simp [hcmp]
      · show (is_next q q2 && p4est_tree_is_complete (q2 :: L'')) = true
        rw [hc', Bool.and_true]
        unfold is_next
        rw [decide_eq_true_eq]
        exact hlq2.symm

/-- C3 (amended: additionally require that `a` is not an ancestor of `b`; the
original claim fails otherwise, as the work loop then emits children of `a`).
For valid quadrants `a < b` with `a` no ancestor of `b` and an initially empty
tree, `p4est_complete_region` produces a leaf array that is sorted, linear (no
ancestor pairs) and complete (every consecutive pair satisfies `is_next`),
that tiles the closed Morton interval between `a` and `b` with no gaps — from
`a`'s start (resp. end) according to `include_a` up to `b`'s end (resp.
start) according to `include_b` — that contains `a` iff `include_a` is set and
`b` iff `include_b` is set, and whose construction calls the user-supplied
initializer exactly once per emitted leaf. -/
theorem claim_C3_complete_region (a b : Quadrant) (ia ib : Bool)
    (hva : IsValidQ a) (hvb : IsValidQ b)
    (hab : qcompare a b < 0) (hnab : is_ancestor a b = false) :
    p4est_tree_is_sorted (p4est_complete_region a ia b ib) = true ∧
    p4est_tree_is_linear (p4est_complete_region a ia b ib) = true ∧
    p4est_tree_is_complete (p4est_complete_region a ia b ib) = true ∧
    TilingB (p4est_complete_region a ia b ib)
      (if ia then lo a else hi a) (if ib then hi b else lo b) ∧
    (a ∈ p4est_complete_region a ia b ib ↔ ia = true) ∧
    (b ∈ p4est_complete_region a ia b ib ↔ ib = true) ∧
    complete_region_init_calls a ia b ib =
      (p4est_complete_region a ia b ib).length := by
  obtain ⟨hTM, hVM⟩ := complete_region_middle hva hvb hab hnab
  have hlha := lo_lt_hi a
  have hlhb := lo_lt_hi b
  have hne : a ≠ b := by
    intro h
    rw [h, qcompare_self] at hab
    omega
  have hR : p4est_complete_region a ia b ib =
      (if ia then [a] else []) ++
      (completeRegionGo a b (5 ^ 31)
        (p4est_quadrant_children (p4est_nearest_common_ancestor a b)) ++
       (if ib then [b] else [])) := by
    unfold p4est_complete_region
    rw [if_pos hab]
  have hTb : TilingB (completeRegionGo a b (5 ^ 31)
      (p4est_quadrant_children (p4est_nearest_common_ancestor a b)) ++
      (if ib then [b] else [])) (hi a) (if ib then hi b else lo b) := by
    cases ib
    · simpa using hTM
    · exact TilingB_append hTM ⟨rfl, rfl⟩
  have hT : TilingB (p4est_complete_region a ia b ib)
      (if ia then lo a else hi a) (if ib then hi b else lo b) := by
    rw [hR]
    cases ia
    · simpa using hTb
    · exact TilingB_append ⟨rfl, rfl⟩ hTb
  have hV : ∀ q ∈ p4est_complete_region a ia b ib, IsValidQ q := by
    rw [hR]
    intro q hq
    rcases List.mem_append.mp hq with h | h
    · cases ia
      · cases h
      · simp only [List.mem_singleton] at h
        have hqa : q = a := by simpa using h
        subst hqa
        exact hva
    · rcases List.mem_append.mp h with h' | h'
      · exact hVM q h'
      · cases ib
        · cases h'
        · have hqb : q = b := by simpa using h'
          subst hqb
          exact hvb
  obtain ⟨hs, hl, hc⟩ := tiling_chain_props hT hV
  have hnaM : a ∉ completeRegionGo a b (5 ^ 31)
      (p4est_quadrant_children (p4est_nearest_common_ancestor a b)) := by
    intro h
    have := TilingB_bounds hTM a h
    omega
  have hnbM : b ∉ completeRegionGo a b (5 ^ 31)
      (p4est_quadrant_children (p4est_nearest_common_ancestor a b)) := by
    intro h
    have := TilingB_bounds hTM b h
    omega
  refine ⟨hs, hl, hc, hT, ?_, ?_, ?_⟩
  · rw [hR]
    cases ia <;> cases ib <;>
      simp_all [List.mem_append, hnaM, hne]
  · rw [hR]
    cases ia <;> cases ib <;>
      simp_all [List.mem_append, hnbM, Ne.symm hne]
  · unfold complete_region_init_calls
    have : (p4est_complete_region a ia b ib).filter insideRoot
        = p4est_complete_region a ia b ib :=
      List.filter_eq_self.mpr fun q hq => valid_insideRoot (hV q hq)
    rw [this]

/-- C3 as stated fails when `a` is an ancestor of `b`: completing the region
from `a = [0,0]@1` to its own third child `b = [0,2^28]@2` (both included)
emits the first two children of `a`, which overlap `a` — the output is
neither linear nor complete. -/
theorem claim_C3_complete_region_counterexample :
    qcompare ⟨0, 0, 1⟩ ⟨0, 2 ^ 28, 2⟩ < 0 ∧
    IsValidQ (⟨0, 0, 1⟩ : Quadrant) ∧ IsValidQ (⟨0, 2 ^ 28, 2⟩ : Quadrant) ∧
    is_ancestor ⟨0, 0, 1⟩ ⟨0, 2 ^ 28, 2⟩ = true ∧
    p4est_complete_region ⟨0, 0, 1⟩ true ⟨0, 2 ^ 28, 2⟩ true =
      [⟨0, 0, 1⟩, ⟨0, 0, 2⟩, ⟨2 ^ 28, 0, 2⟩, ⟨0, 2 ^ 28, 2⟩] ∧
    p4est_tree_is_linear
      (p4est_complete_region ⟨0, 0, 1⟩ true ⟨0, 2 ^ 28, 2⟩ true) = false ∧
    p4est_tree_is_complete
      (p4est_complete_region ⟨0, 0, 1⟩ true ⟨0, 2 ^ 28, 2⟩ true) = false := by
  decide

theorem claim_C3_complete_region_witness :
    p4est_tree_is_sorted
      (p4est_complete_region ⟨0, 0, 1⟩ true ⟨2 ^ 29, 2 ^ 29, 1⟩ true) = true ∧
    p4est_tree_is_linear
      (p4est_complete_region ⟨0, 0, 1⟩ true ⟨2 ^ 29, 2 ^ 29, 1⟩ true) = true ∧
    p4est_tree_is_complete
      (p4est_complete_region ⟨0, 0, 1⟩ true ⟨2 ^ 29, 2 ^ 29, 1⟩ true) = true ∧
    TilingB (p4est_complete_region ⟨0, 0, 1⟩ true ⟨2 ^ 29, 2 ^ 29, 1⟩ true)
      (if true then lo ⟨0, 0, 1⟩ else hi ⟨0, 0, 1⟩)
      (if true then hi ⟨2 ^ 29, 2 ^ 29, 1⟩ else lo ⟨2 ^ 29, 2 ^ 29, 1⟩) ∧
    ((⟨0, 0, 1⟩ : Quadrant) ∈
        p4est_complete_region ⟨0, 0, 1⟩ true ⟨2 ^ 29, 2 ^ 29, 1⟩ true ↔
      true = true) ∧
    ((⟨2 ^ 29, 2 ^ 29, 1⟩ : Quadrant) ∈
        p4est_complete_region ⟨0, 0, 1⟩ true ⟨2 ^ 29, 2 ^ 29, 1⟩ true ↔
      true = true) ∧
    complete_region_init_calls ⟨0, 0, 1⟩ true ⟨2 ^ 29, 2 ^ 29, 1⟩ true =
      (p4est_complete_region ⟨0, 0, 1⟩ true ⟨2 ^ 29, 2 ^ 29, 1⟩ true).length :=
  claim_C3_complete_region ⟨0, 0, 1⟩ ⟨2 ^ 29, 2 ^ 29, 1⟩ true true
    (by decide) (by decide) (by decide) (by decide)

end P4est
